import Mathlib

/-!
# Verification of the merge-and-rewrite engine of rollup-plugin-iife-split

This development shallowly embeds the chunk-merging and IIFE-wrapping code
(`chunk-merger.ts`, `esm-to-iife.ts`, `index.ts`) over an AST model of the
ECMAScript-module subset the engine actually consults: import declarations,
variable/function/class declarations, export declarations, member
expressions, call expressions, function expressions and object literals.

The source operates on text via MagicString span edits driven by an
estree-walker traversal; the embedding performs the corresponding
structural edits on the AST.  Functions named as in the source
(`extractTopLevelDeclarations`, `extractExternalImportBindings`,
`renameIdentifiers`, `extractExports`, `stripExports`,
`removeOrRewriteDuplicateExternalImports`, `isSharedChunkSource`,
`removeSharedImportsAndRewriteRefs`, `mergeSharedIntoPrimary`,
`destructureSharedParameter`) are direct translations of the
correspondingly named TypeScript functions.
-/

/-- Association list standing in for a JS `Map<string, string>`:
`lookupAssoc` is `Map.get`. -/
def lookupAssoc (m : List (String × String)) (k : String) : Option String :=
  match m with
  | [] => none
  | (a, b) :: rest => if a == k then some b else lookupAssoc rest k

/-- `Map.set`: replaces the binding for `k` in place (preserving insertion
order) or appends a new one. -/
def setAssoc (m : List (String × String)) (k v : String) : List (String × String) :=
  match m with
  | [] => [(k, v)]
  | (a, b) :: rest => if a == k then (k, v) :: rest else (a, b) :: setAssoc rest k v

/-- `Map.get(k) ?? d`. -/
def lookupD (m : List (String × String)) (k d : String) : String :=
  (lookupAssoc m k).getD d

/-- JS `Set.add` on an insertion-ordered string set. -/
def addUnique (l : List String) (n : String) : List String :=
  if l.contains n then l else l ++ [n]

/-- JS `source.includes(needle)` (substring containment). -/
def containsJS (hay needle : String) : Bool :=
  decide (needle.data <:+: hay.data)

/-- JS `s.startsWith(p)`. -/
def startsWithJS (s p : String) : Bool :=
  p.data.isPrefixOf s.data

/-- JS `s.endsWith(p)`. -/
def endsWithJS (s p : String) : Bool :=
  p.data.isSuffixOf s.data

/-- JS `fileName.replace(/\.js$/, '')`. -/
def stripJsSuffix (f : String) : String :=
  if endsWithJS f ".js" then f.dropRight 3 else f

/-- A non-relative import source (`!source.startsWith('.') && !source.startsWith('/')`). -/
def isExternalSource (src : String) : Bool :=
  !(startsWithJS src "." || startsWithJS src "/")

/-- Does `n` start with the reserved collision-rename prefix `__shared`?
(Covers both `__shared$x` rename targets and `__shared_default__`.) -/
def hasSharedPfx (n : String) : Bool :=
  "__shared".data.isPrefixOf n.data

/-- An estree import specifier: `{ imported as loc }`, `loc` (default import),
or `* as loc` (namespace import). -/
inductive ImpSpec where
  | named (imported loc : String)
  | defaultSpec (loc : String)
  | starSpec (loc : String)
deriving DecidableEq, Repr

/-- The local binding a specifier introduces (`spec.local.name`). -/
def localOfSpec : ImpSpec → String
  | .named _ l => l
  | .defaultSpec l => l
  | .starSpec l => l

/-- Function parameter patterns: a plain identifier or an object
destructuring pattern `{ imported: loc, ... }`. -/
inductive Pat where
  | pid (name : String)
  | pobj (entries : List (String × String))
deriving DecidableEq, Repr

mutual
/-- Expressions of the consulted estree subset. `member obj prop computed`
is `obj.prop` (or `obj[prop]` when `computed`); `objLit` is the
`{ key: value, ... }` shape the merge synthesizes. -/
inductive Expr where
  | ident (name : String)
  | strLit (value : String)
  | member (obj : Expr) (prop : String) (computed : Bool)
  | call (callee : Expr) (args : List Expr)
  | funcExpr (params : List Pat) (body : List Stmt)
  | objLit (entries : List (String × String))

/-- Top-level (and function-body) statements of the consulted subset.
`exportDeclStmt` is `export <declaration>`; `exportSpecs es src?` is
`export { l as e, ... } [from src]`; `exportDefault` is `export default e`. -/
inductive Stmt where
  | importDecl (source : String) (specs : List ImpSpec)
  | varDecl (decls : List (String × Option Expr))
  | funDecl (name : String) (params : List Pat) (body : List Stmt)
  | classDecl (name : String)
  | exportDeclStmt (inner : Stmt)
  | exportSpecs (specs : List (String × String)) (source : Option String)
  | exportDefault (e : Expr)
  | exprStmt (e : Expr)
end

/-- The names a single statement binds at top level (import bindings and
declaration names); the observation the collision-freedom property is about. -/
def boundS : Stmt → List String
  | .importDecl _ specs => specs.map localOfSpec
  | .varDecl ds => ds.map (·.1)
  | .funDecl n _ _ => [n]
  | .classDecl n => [n]
  | .exportDeclStmt inner => boundS inner
  | .exportSpecs _ _ => []
  | .exportDefault _ => []
  | .exprStmt _ => []

/-- All names bound at the top level of a module, with multiplicity. -/
def boundNames (prog : List Stmt) : List String :=
  (prog.map boundS).flatten

/-- Names declared by one statement, as consulted by
`extractTopLevelDeclarations` (declarations, bare or export-wrapped). -/
def tldNamesOf : Stmt → List String
  | .varDecl ds => ds.map (·.1)
  | .funDecl n _ _ => [n]
  | .classDecl n => [n]
  | .exportDeclStmt inner =>
    match inner with
    | .varDecl ds => ds.map (·.1)
    | .funDecl n _ _ => [n]
    | .classDecl n => [n]
    | _ => []
  | _ => []

/-- `extractTopLevelDeclarations` (chunk-merger): every name bound by a
top-level `const/let/var`, function, or class declaration, including ones
still wrapped in an export clause.  The JS `Set` is an insertion-ordered
duplicate-free list. -/
def extractTopLevelDeclarations (prog : List Stmt) : List String :=
  prog.foldl (fun ds st => (tldNamesOf st).foldl addUnique ds) []

/-- `extractExternalImportBindings` (chunk-merger): local binding names of
all external (non-relative) imports. -/
def extractExternalImportBindings (prog : List Stmt) : List String :=
  prog.foldl
    (fun bs st =>
      match st with
      | .importDecl src specs =>
        if isExternalSource src then (specs.map localOfSpec).foldl addUnique bs else bs
      | _ => bs)
    []

/-- Export mappings contributed by one statement, as collected by
`extractExports`: pairs `(exportedName, localName)`. -/
def exportsOf : Stmt → List (String × String)
  | .exportDeclStmt inner =>
    match inner with
    | .varDecl ds => ds.map (fun d => (d.1, d.1))
    | .funDecl n _ _ => [(n, n)]
    | .classDecl n => [(n, n)]
    | _ => []
  | .exportSpecs specs _ => specs.map (fun le => (le.2, le.1))
  | _ => []

/-- `extractExports` (chunk-merger): the ordered `(exportedName, localName)`
list plus whether an `export default` exists. -/
def extractExports (prog : List Stmt) : List (String × String) × Bool :=
  prog.foldl
    (fun acc st =>
      match st with
      | .exportDefault _ => (acc.1 ++ exportsOf st, true)
      | _ => (acc.1 ++ exportsOf st, acc.2))
    ([], false)

/-- `stripExports` (chunk-merger): `export <decl>` loses the `export`
keyword, bare `export { ... }` statements (with or without a source) are
deleted, and `export default e` becomes `const __shared_default__ = e`. -/
def stripExports (prog : List Stmt) : List Stmt :=
  prog.filterMap
    (fun st =>
      match st with
      | .exportDeclStmt inner => some inner
      | .exportSpecs _ _ => none
      | .exportDefault e => some (.varDecl [("__shared_default__", some e)])
      | st => some st)

/-- Number of `export default` statements in a module (a syntactically
valid module has at most one). -/
def countDefaults (prog : List Stmt) : Nat :=
  prog.countP (fun st => match st with | .exportDefault _ => true | _ => false)

/-- Shorthand for "the rename a map applies to one identifier occurrence". -/
def renApp (m : List (String × String)) (n : String) : String :=
  lookupD m n n

/-- `renameIdentifiers` on one import specifier.  Named specifiers are
rewritten to `imported as newLocal` (the imported name is never touched,
and the walker skips the specifier's children, so the imported identifier
is not independently renamed); default-import specifiers become the named
form `default as newLocal`; namespace specifiers are renamed in place.
Specifiers whose local binding has no map entry are left alone. -/
def rnSpec (m : List (String × String)) : ImpSpec → ImpSpec
  | .named imported l =>
    match lookupAssoc m l with
    | some nn => .named imported nn
    | none => .named imported l
  | .defaultSpec l =>
    match lookupAssoc m l with
    | some nn => .named "default" nn
    | none => .defaultSpec l
  | .starSpec l =>
    match lookupAssoc m l with
    | some nn => .starSpec nn
    | none => .starSpec l

/-- Identifier renaming on patterns (every identifier node in an object
pattern — key and value — is visited by the generic identifier case). -/
def rnPat (m : List (String × String)) : Pat → Pat
  | .pid n => .pid (renApp m n)
  | .pobj es => .pobj (es.map (fun e => (renApp m e.1, renApp m e.2)))

mutual
/-- `renameIdentifiers`, expression part: every `Identifier` node whose
name is a key of the map is replaced by the mapped name.  Member
expressions are not special-cased by this walker, so a member expression's
property identifier is renamed like any other identifier occurrence. -/
def rnExpr (m : List (String × String)) : Expr → Expr
  | .ident n => .ident (renApp m n)
  | .strLit v => .strLit v
  | .member o p c => .member (rnExpr m o) (renApp m p) c
  | .call f args => .call (rnExpr m f) (rnExprs m args)
  | .funcExpr ps b => .funcExpr (ps.map (rnPat m)) (rnStmts m b)
  | .objLit es => .objLit (es.map (fun e => (renApp m e.1, renApp m e.2)))

def rnExprs (m : List (String × String)) : List Expr → List Expr
  | [] => []
  | e :: es => rnExpr m e :: rnExprs m es

def rnDecls (m : List (String × String)) :
    List (String × Option Expr) → List (String × Option Expr)
  | [] => []
  | (n, some e) :: ds => (renApp m n, some (rnExpr m e)) :: rnDecls m ds
  | (n, none) :: ds => (renApp m n, none) :: rnDecls m ds

/-- `renameIdentifiers`, statement part.  Import specifiers get the
structural rewrites of `rnSpec`; export specifiers are *not* special-cased,
so both their local and exported identifiers are renamed blindly. -/
def rnStmt (m : List (String × String)) : Stmt → Stmt
  | .importDecl src specs => .importDecl src (specs.map (rnSpec m))
  | .varDecl ds => .varDecl (rnDecls m ds)
  | .funDecl n ps b => .funDecl (renApp m n) (ps.map (rnPat m)) (rnStmts m b)
  | .classDecl n => .classDecl (renApp m n)
  | .exportDeclStmt inner => .exportDeclStmt (rnStmt m inner)
  | .exportSpecs specs src => .exportSpecs (specs.map (fun le => (renApp m le.1, renApp m le.2))) src
  | .exportDefault e => .exportDefault (rnExpr m e)
  | .exprStmt e => .exprStmt (rnExpr m e)

def rnStmts (m : List (String × String)) : List Stmt → List Stmt
  | [] => []
  | s :: ss => rnStmt m s :: rnStmts m ss
end

/-- `renameIdentifiers` (chunk-merger): returns the code unchanged when the
map is empty, otherwise applies the walker above. -/
def renameIdentifiers (prog : List Stmt) (m : List (String × String)) : List Stmt :=
  if m.isEmpty then prog else rnStmts m prog

/-- `ExternalImport` record of the source: one external import statement's
source and specifiers. -/
structure ExternalImport where
  source : String
  specifiers : List ImpSpec
deriving DecidableEq, Repr

/-- `extractExternalImports` (chunk-merger): all external (non-relative)
module imports. -/
def extractExternalImports (prog : List Stmt) : List ExternalImport :=
  prog.filterMap
    (fun st =>
      match st with
      | .importDecl src specs =>
        if isExternalSource src then some ⟨src, specs⟩ else none
      | _ => none)

/-- Does specifier `r` import the same binding as specifier `s`
(same kind, and for named specifiers the same imported name)?  This is the
`sharedSpec.type === primarySpec.type` comparison of
`removeOrRewriteDuplicateExternalImports`. -/
def specMatches (s r : ImpSpec) : Bool :=
  match s, r with
  | .named i _, .named i' _ => i == i'
  | .defaultSpec _, .defaultSpec _ => true
  | .starSpec _, .starSpec _ => true
  | _, _ => false

/-- The nested `for primaryImp / for primarySpec` search: the first
specifier among `refs` (imports of the other chunk with the same source)
matching `s`. -/
def findDupMatch (s : ImpSpec) (refs : List ExternalImport) : Option ImpSpec :=
  refs.findSome? (fun imp => imp.specifiers.find? (fun r => specMatches s r))

/-- Rebuilding a partially deduplicated import statement: the kept default
specifier is unshifted to the front, namespace specifiers are pushed, and
the named specifiers are grouped into one brace list appended last. -/
def rebuildSpecs (keep : List ImpSpec) : List ImpSpec :=
  let pn := keep.foldl
    (fun (acc : List ImpSpec × List ImpSpec) s =>
      match s with
      | .defaultSpec _ => (s :: acc.1, acc.2)
      | .starSpec _ => (acc.1 ++ [s], acc.2)
      | .named _ _ => (acc.1, acc.2 ++ [s]))
    ([], [])
  pn.1 ++ pn.2

/-- One step of the specifier loop of
`removeOrRewriteDuplicateExternalImports`: a specifier found in the
reference imports is dropped (recording the rename local → reference-local
when the aliases differ); an unmatched one is kept. -/
def dedupStep (refs : List ExternalImport)
    (acc : List ImpSpec × List (String × String)) (s : ImpSpec) :
    List ImpSpec × List (String × String) :=
  match findDupMatch s refs with
  | some r =>
    (acc.1,
     if localOfSpec s != localOfSpec r
     then setAssoc acc.2 (localOfSpec s) (localOfSpec r)
     else acc.2)
  | none => (acc.1 ++ [s], acc.2)

/-- One import statement's processing by
`removeOrRewriteDuplicateExternalImports`: specifiers already imported by
the reference chunk are dropped (recording a rename when the local aliases
differ); an import whose specifiers were all dropped is removed, a
partially deduplicated one is rebuilt, and an untouched one is kept
verbatim. -/
def processImportStmt (m0 : List (String × String)) (src : String)
    (specs : List ImpSpec) (refs : List ExternalImport) :
    Option Stmt × List (String × String) :=
  let km := specs.foldl (dedupStep refs) ([], m0)
  let keep := km.1
  (if keep.isEmpty then none
   else if keep.length < specs.length then some (.importDecl src (rebuildSpecs keep))
   else some (.importDecl src specs),
   km.2)

/-- `removeOrRewriteDuplicateExternalImports` (chunk-merger).  Note the
call site in `mergeSharedIntoPrimary` passes the *primary* chunk's code and
the *shared* chunk's external imports, so this removes from the primary
every external import binding the shared chunk already has, recording the
rename primary-local → shared-local where the aliases differ. -/
def removeOrRewriteDuplicateExternalImports (prog : List Stmt)
    (refImports : List ExternalImport) : List Stmt × List (String × String) :=
  prog.foldl
    (fun (acc : List Stmt × List (String × String)) st =>
      match st with
      | .importDecl src specs =>
        if isExternalSource src then
          let refs := refImports.filter (fun r => r.source == src)
          if refs.isEmpty then (acc.1 ++ [st], acc.2)
          else
            let pr := processImportStmt acc.2 src specs refs
            (acc.1 ++ pr.1.toList, pr.2)
        else (acc.1 ++ [st], acc.2)
      | _ => (acc.1 ++ [st], acc.2))
    ([], [])

/-- `SHARED_CHUNK_NAME` (chunk-analyzer). -/
def SHARED_CHUNK_NAME : String := "__shared__"

/-- `isSharedChunkSource` (chunk-merger): an import source refers to the
shared chunk when it *contains* `__shared__` or *contains* the shared
chunk's file name with a trailing `.js` stripped. -/
def isSharedChunkSource (source sharedChunkFileName : String) : Bool :=
  containsJS source SHARED_CHUNK_NAME ||
  containsJS source (stripJsSuffix sharedChunkFileName)

/-- First pass of `removeSharedImportsAndRewriteRefs`: local names of
namespace imports of the shared chunk. -/
def collectNamespaceNames (prog : List Stmt) (sharedFileName : String) : List String :=
  prog.foldl
    (fun acc st =>
      match st with
      | .importDecl src specs =>
        if isSharedChunkSource src sharedFileName then
          specs.foldl
            (fun a sp => match sp with | .starSpec l => addUnique a l | _ => a)
            acc
        else acc
      | _ => acc)
    []

/-- First pass of `removeSharedImportsAndRewriteRefs`: for each named or
default import of the shared chunk, the rename local-alias → actual local
name of the merged shared code (recorded only when they differ). -/
def collectNamedImportRenames (prog : List Stmt) (sharedFileName : String)
    (etl : List (String × String)) : List (String × String) :=
  prog.foldl
    (fun m st =>
      match st with
      | .importDecl src specs =>
        if isSharedChunkSource src sharedFileName then
          specs.foldl
            (fun m sp =>
              match sp with
              | .named imported l =>
                let actual := lookupD etl imported imported
                if l != actual then setAssoc m l actual else m
              | .defaultSpec l =>
                let actual := lookupD etl "default" "__shared_default__"
                if l != actual then setAssoc m l actual else m
              | .starSpec _ => m)
            m
        else m
      | _ => m)
    []

mutual
/-- Second pass of `removeSharedImportsAndRewriteRefs`, expression part:
a non-computed member access whose object is a namespace import of the
shared chunk is replaced whole by the export's resolved local name (and the
walker skips its children); any other identifier occurrence — including a
member expression's property identifier — is renamed through the
named-import rename map. -/
def rsExpr (ns : List String) (renames etl : List (String × String)) : Expr → Expr
  | .ident n => .ident (renApp renames n)
  | .strLit v => .strLit v
  | .member o p c =>
    match o with
    | .ident n =>
      if ns.contains n && !c then .ident (lookupD etl p p)
      else .member (.ident (renApp renames n)) (renApp renames p) c
    | o => .member (rsExpr ns renames etl o) (renApp renames p) c
  | .call f args => .call (rsExpr ns renames etl f) (rsExprs ns renames etl args)
  | .funcExpr ps b => .funcExpr (ps.map (rnPat renames)) (rsStmts ns renames etl b)
  | .objLit es => .objLit (es.map (fun e => (renApp renames e.1, renApp renames e.2)))

def rsExprs (ns : List String) (renames etl : List (String × String)) :
    List Expr → List Expr
  | [] => []
  | e :: es => rsExpr ns renames etl e :: rsExprs ns renames etl es

def rsDecls (ns : List String) (renames etl : List (String × String)) :
    List (String × Option Expr) → List (String × Option Expr)
  | [] => []
  | (n, some e) :: ds => (renApp renames n, some (rsExpr ns renames etl e)) :: rsDecls ns renames etl ds
  | (n, none) :: ds => (renApp renames n, none) :: rsDecls ns renames etl ds

/-- Second pass of `removeSharedImportsAndRewriteRefs`, statement part for
statements that are *not* removed or structurally replaced.  Unlike
`renameIdentifiers` this walker has no import-specifier special cases, so
the identifiers inside remaining import and export specifiers are renamed
blindly by the generic identifier rule. -/
def rsStmt (ns : List String) (renames etl : List (String × String)) : Stmt → Stmt
  | .importDecl src specs =>
    .importDecl src
      (specs.map
        (fun sp =>
          match sp with
          | .named i l => .named (renApp renames i) (renApp renames l)
          | .defaultSpec l => .defaultSpec (renApp renames l)
          | .starSpec l => .starSpec (renApp renames l)))
  | .varDecl ds => .varDecl (rsDecls ns renames etl ds)
  | .funDecl n ps b => .funDecl (renApp renames n) (ps.map (rnPat renames)) (rsStmts ns renames etl b)
  | .classDecl n => .classDecl (renApp renames n)
  | .exportDeclStmt inner => .exportDeclStmt (rsStmt ns renames etl inner)
  | .exportSpecs specs src =>
    .exportSpecs (specs.map (fun le => (renApp renames le.1, renApp renames le.2))) src
  | .exportDefault e => .exportDefault (rsExpr ns renames etl e)
  | .exprStmt e => .exprStmt (rsExpr ns renames etl e)

def rsStmts (ns : List String) (renames etl : List (String × String)) :
    List Stmt → List Stmt
  | [] => []
  | s :: ss => rsStmt ns renames etl s :: rsStmts ns renames etl ss
end

/-- `removeSharedImportsAndRewriteRefs` (chunk-merger): imports of the
shared chunk are removed; re-exports from the shared chunk are rewritten to
plain `export { resolvedLocal as exported }` clauses; everything else goes
through the reference-rewriting walker `rsStmt`. -/
def removeSharedImportsAndRewriteRefs (prog : List Stmt)
    (sharedFileName : String) (etl : List (String × String)) : List Stmt :=
  let ns := collectNamespaceNames prog sharedFileName
  let renames := collectNamedImportRenames prog sharedFileName etl
  prog.filterMap
    (fun st =>
      match st with
      | .importDecl src _ =>
        if isSharedChunkSource src sharedFileName then none
        else some (rsStmt ns renames etl st)
      | .exportSpecs specs (some src) =>
        if isSharedChunkSource src sharedFileName then
          some (.exportSpecs (specs.map (fun le => (lookupD etl le.1 le.1, le.2))) none)
        else some (rsStmt ns renames etl st)
      | st => some (rsStmt ns renames etl st))

/-- The collision-resolver loops of `mergeSharedIntoPrimary` (lines
899–915): every shared declaration or shared external-import binding that
is also a primary declaration or primary external-import binding is mapped
to `__shared$` + its name. -/
def buildCollisionRenameMap (sd sb pd pb : List String) : List (String × String) :=
  let m1 := sd.foldl
    (fun m n =>
      if pd.contains n || pb.contains n then setAssoc m n ("__shared$" ++ n) else m)
    []
  sb.foldl
    (fun m n =>
      if (pd.contains n || pb.contains n) && (lookupAssoc m n).isNone
      then setAssoc m n ("__shared$" ++ n)
      else m)
    m1

/-- The shared export-name → merged local-name table of
`mergeSharedIntoPrimary` (lines 928–936). -/
def buildExportToLocal (exps : List (String × String)) (hasDef : Bool)
    (cm : List (String × String)) : List (String × String) :=
  let m := exps.foldl (fun m el => setAssoc m el.1 (lookupD cm el.2 el.2)) []
  if hasDef then setAssoc m "default" "__shared_default__" else m

/-- The materialized shared-object entries of `mergeSharedIntoPrimary`
(lines 956–966): `(key, value)` pairs of the object literal bound to the
shared property — exports filtered by the needed set (values reflecting
collision renames), plus `default: __shared_default__` when applicable. -/
def sharedExportEntries (exps : List (String × String)) (hasDef : Bool)
    (cm : List (String × String)) (needed : List String) : List (String × String) :=
  (exps.filter (fun el => needed.contains el.1)).map
      (fun el => (el.1, lookupD cm el.2 el.2))
    ++ (if hasDef && needed.contains "default"
        then [("default", "__shared_default__")] else [])

/-- The deduplicated primary code inside `mergeSharedIntoPrimary`
(`primaryCodeDeduped`). -/
def dedupedPrimary (primary shared : List Stmt) : List Stmt :=
  (removeOrRewriteDuplicateExternalImports primary (extractExternalImports shared)).1

/-- The external rename map produced by the deduplication step
(`externalRenameMap`). -/
def externalRenameMapOf (primary shared : List Stmt) : List (String × String) :=
  (removeOrRewriteDuplicateExternalImports primary (extractExternalImports shared)).2

/-- `collisionRenameMap` as computed inside `mergeSharedIntoPrimary`:
declarations and external import bindings of the shared chunk against
declarations and external import bindings of the deduplicated primary. -/
def collisionMapOf (primary shared : List Stmt) : List (String × String) :=
  buildCollisionRenameMap
    (extractTopLevelDeclarations shared)
    (extractExternalImportBindings shared)
    (extractTopLevelDeclarations (dedupedPrimary primary shared))
    (extractExternalImportBindings (dedupedPrimary primary shared))

/-- The shared-object entries as computed inside `mergeSharedIntoPrimary`
for a given needed-exports set. -/
def mergeEntries (primary shared : List Stmt) (needed : List String) :
    List (String × String) :=
  sharedExportEntries (extractExports shared).1 (extractExports shared).2
    (collisionMapOf primary shared) needed

/-- `mergeSharedIntoPrimary` (chunk-merger, lines 871–982): deduplicate the
primary's external imports against the shared chunk's, rename colliding
shared identifiers, strip the shared chunk's export syntax, remove the
primary's imports of the shared chunk and rewrite its references, apply the
external rename map, and append the materialized shared object plus its
export when any satellite-needed entries exist.  Returns the merged
primary module. -/
def mergeSharedIntoPrimary (primary shared : List Stmt)
    (sharedProperty : String) (needed : List String)
    (sharedFileName : String) : List Stmt :=
  let exps := extractExports shared
  let primaryDeduped := dedupedPrimary primary shared
  let externalRenameMap := externalRenameMapOf primary shared
  let collisionRenameMap := collisionMapOf primary shared
  let processedShared := renameIdentifiers shared collisionRenameMap
  let strippedShared := stripExports processedShared
  let etl := buildExportToLocal exps.1 exps.2 collisionRenameMap
  let primaryNoShared := removeSharedImportsAndRewriteRefs primaryDeduped sharedFileName etl
  let primaryFinal := renameIdentifiers primaryNoShared externalRenameMap
  let entries := mergeEntries primary shared needed
  strippedShared ++ primaryFinal ++
    (if entries.isEmpty then []
     else [Stmt.varDecl [(sharedProperty, some (Expr.objLit entries))],
           Stmt.exportSpecs [(sharedProperty, sharedProperty)] none])

/-- The shared parameter found by `destructureSharedParameter`'s first
walk: the last parameter of a function expression, provided it is a plain
identifier. -/
def lastIsPid (ps : List Pat) : Option String :=
  match ps.getLast? with
  | some (.pid n) => some n
  | _ => none

mutual
/-- First walk of `destructureSharedParameter`: the first function
expression (in document order) whose parameter list is nonempty with an
identifier in last position; returns that last parameter's name. -/
def findSharedE : Expr → Option String
  | .ident _ => none
  | .strLit _ => none
  | .member o _ _ => findSharedE o
  | .call f args =>
    match findSharedE f with
    | some n => some n
    | none => findSharedEs args
  | .funcExpr ps b =>
    match lastIsPid ps with
    | some n => some n
    | none => findSharedSs b
  | .objLit _ => none

def findSharedEs : List Expr → Option String
  | [] => none
  | e :: es =>
    match findSharedE e with
    | some n => some n
    | none => findSharedEs es

def findSharedS : Stmt → Option String
  | .importDecl _ _ => none
  | .varDecl ds => findSharedDs ds
  | .funDecl _ _ b => findSharedSs b
  | .classDecl _ => none
  | .exportDeclStmt inner => findSharedS inner
  | .exportSpecs _ _ => none
  | .exportDefault e => findSharedE e
  | .exprStmt e => findSharedE e

def findSharedDs : List (String × Option Expr) → Option String
  | [] => none
  | (_, some e) :: ds =>
    match findSharedE e with
    | some n => some n
    | none => findSharedDs ds
  | (_, none) :: ds => findSharedDs ds

def findSharedSs : List Stmt → Option String
  | [] => none
  | s :: ss =>
    match findSharedS s with
    | some n => some n
    | none => findSharedSs ss
end

/-- `findSharedParam` over a whole program. -/
def findSharedParam (prog : List Stmt) : Option String :=
  findSharedSs prog

mutual
/-- The parameter overwrite of `destructureSharedParameter`: replace the
last parameter of the *first* matching function expression (the one
`findSharedE` locates) by the destructuring pattern.  The `Bool` result
records whether the replacement happened. -/
def repParamE (pat : Pat) : Expr → Expr × Bool
  | .ident n => (.ident n, false)
  | .strLit v => (.strLit v, false)
  | .member o p c =>
    let r := repParamE pat o
    (.member r.1 p c, r.2)
  | .call f args =>
    let rf := repParamE pat f
    if rf.2 then (.call rf.1 args, true)
    else
      let ra := repParamEs pat args
      (.call f ra.1, ra.2)
  | .funcExpr ps b =>
    match lastIsPid ps with
    | some _ => (.funcExpr (ps.dropLast ++ [pat]) b, true)
    | none =>
      let rb := repParamSs pat b
      (.funcExpr ps rb.1, rb.2)
  | .objLit es => (.objLit es, false)

def repParamEs (pat : Pat) : List Expr → List Expr × Bool
  | [] => ([], false)
  | e :: es =>
    let r := repParamE pat e
    if r.2 then (r.1 :: es, true)
    else
      let rs := repParamEs pat es
      (e :: rs.1, rs.2)

def repParamS (pat : Pat) : Stmt → Stmt × Bool
  | .importDecl src specs => (.importDecl src specs, false)
  | .varDecl ds =>
    let r := repParamDs pat ds
    (.varDecl r.1, r.2)
  | .funDecl n ps b =>
    let r := repParamSs pat b
    (.funDecl n ps r.1, r.2)
  | .classDecl n => (.classDecl n, false)
  | .exportDeclStmt inner =>
    let r := repParamS pat inner
    (.exportDeclStmt r.1, r.2)
  | .exportSpecs specs src => (.exportSpecs specs src, false)
  | .exportDefault e =>
    let r := repParamE pat e
    (.exportDefault r.1, r.2)
  | .exprStmt e =>
    let r := repParamE pat e
    (.exprStmt r.1, r.2)

def repParamDs (pat : Pat) :
    List (String × Option Expr) → List (String × Option Expr) × Bool
  | [] => ([], false)
  | (n, some e) :: ds =>
    let r := repParamE pat e
    if r.2 then ((n, some r.1) :: ds, true)
    else
      let rs := repParamDs pat ds
      ((n, some e) :: rs.1, rs.2)
  | (n, none) :: ds =>
    let rs := repParamDs pat ds
    ((n, none) :: rs.1, rs.2)

def repParamSs (pat : Pat) : List Stmt → List Stmt × Bool
  | [] => ([], false)
  | s :: ss =>
    let r := repParamS pat s
    if r.2 then (r.1 :: ss, true)
    else
      let rs := repParamSs pat ss
      (s :: rs.1, rs.2)
end

/-- Replace the shared parameter of the first matching function expression
in the program. -/
def replaceParamFirst (pat : Pat) (prog : List Stmt) : List Stmt :=
  (repParamSs pat prog).1

/-- The contribution of one member expression `o.q` (or `o[q]`) to the
collected accesses on the shared parameter `p`: the property name when the
object is the identifier `p` and the access is non-computed. -/
def accessHead (p : String) (o : Expr) (q : String) (c : Bool) : List String :=
  match o with
  | .ident n => if n == p && !c then [q] else []
  | _ => []

mutual
/-- Second walk of `destructureSharedParameter`: the property names of all
non-computed member accesses whose object is the shared parameter `p`, in
document order (with duplicates). -/
def collectE (p : String) : Expr → List String
  | .ident _ => []
  | .strLit _ => []
  | .member o q c => accessHead p o q c ++ collectE p o
  | .call f args => collectE p f ++ collectEs p args
  | .funcExpr _ b => collectSs p b
  | .objLit _ => []

def collectEs (p : String) : List Expr → List String
  | [] => []
  | e :: es => collectE p e ++ collectEs p es

def collectS (p : String) : Stmt → List String
  | .importDecl _ _ => []
  | .varDecl ds => collectDs p ds
  | .funDecl _ _ b => collectSs p b
  | .classDecl _ => []
  | .exportDeclStmt inner => collectS p inner
  | .exportSpecs _ _ => []
  | .exportDefault e => collectE p e
  | .exprStmt e => collectE p e

def collectDs (p : String) : List (String × Option Expr) → List String
  | [] => []
  | (_, some e) :: ds => collectE p e ++ collectDs p ds
  | (_, none) :: ds => collectDs p ds

def collectSs (p : String) : List Stmt → List String
  | [] => []
  | s :: ss => collectS p s ++ collectSs p ss
end

/-- All property accesses on the shared parameter in a program
(`propertyAccesses` of the source, projected to the property names). -/
def collectProps (p : String) (prog : List Stmt) : List String :=
  collectSs p prog

mutual
/-- The access overwrites of `destructureSharedParameter`: each collected
member access `p.q` is replaced whole by the identifier `f q`
(`importToLocal.get(propName) ?? propName` in the source). -/
def rwE (f : String → String) (p : String) : Expr → Expr
  | .ident n => .ident n
  | .strLit v => .strLit v
  | .member o q c =>
    match o with
    | .ident n =>
      if n == p && !c then .ident (f q) else .member (.ident n) q c
    | o => .member (rwE f p o) q c
  | .call g args => .call (rwE f p g) (rwEs f p args)
  | .funcExpr ps b => .funcExpr ps (rwSs f p b)
  | .objLit es => .objLit es

def rwEs (f : String → String) (p : String) : List Expr → List Expr
  | [] => []
  | e :: es => rwE f p e :: rwEs f p es

def rwS (f : String → String) (p : String) : Stmt → Stmt
  | .importDecl src specs => .importDecl src specs
  | .varDecl ds => .varDecl (rwDs f p ds)
  | .funDecl n ps b => .funDecl n ps (rwSs f p b)
  | .classDecl n => .classDecl n
  | .exportDeclStmt inner => .exportDeclStmt (rwS f p inner)
  | .exportSpecs specs src => .exportSpecs specs src
  | .exportDefault e => .exportDefault (rwE f p e)
  | .exprStmt e => .exprStmt (rwE f p e)

def rwDs (f : String → String) (p : String) :
    List (String × Option Expr) → List (String × Option Expr)
  | [] => []
  | (n, some e) :: ds => (n, some (rwE f p e)) :: rwDs f p ds
  | (n, none) :: ds => (n, none) :: rwDs f p ds

def rwSs (f : String → String) (p : String) : List Stmt → List Stmt
  | [] => []
  | s :: ss => rwS f p s :: rwSs f p ss
end

/-- Rewrite all member accesses on the shared parameter to identifiers. -/
def rewriteAccesses (f : String → String) (p : String) (prog : List Stmt) : List Stmt :=
  rwSs f p prog

/-- Is this statement a `'use strict'` directive (an expression statement
whose expression is the string literal `use strict`)? -/
def isUseStrict : Stmt → Bool
  | .exprStmt (.strLit v) => v == "use strict"
  | _ => false

mutual
/-- The final walk of `destructureSharedParameter`: remove every
`'use strict'` directive statement (illegal next to a destructuring
parameter), anywhere in the tree. -/
def remUSE : Expr → Expr
  | .ident n => .ident n
  | .strLit v => .strLit v
  | .member o q c => .member (remUSE o) q c
  | .call f args => .call (remUSE f) (remUSEs args)
  | .funcExpr ps b => .funcExpr ps (remUSSs b)
  | .objLit es => .objLit es

def remUSEs : List Expr → List Expr
  | [] => []
  | e :: es => remUSE e :: remUSEs es

def remUSS : Stmt → Stmt
  | .importDecl src specs => .importDecl src specs
  | .varDecl ds => .varDecl (remUSDs ds)
  | .funDecl n ps b => .funDecl n ps (remUSSs b)
  | .classDecl n => .classDecl n
  | .exportDeclStmt inner => .exportDeclStmt (remUSS inner)
  | .exportSpecs specs src => .exportSpecs specs src
  | .exportDefault e => .exportDefault (remUSE e)
  | .exprStmt e => .exprStmt (remUSE e)

def remUSDs : List (String × Option Expr) → List (String × Option Expr)
  | [] => []
  | (n, some e) :: ds => (n, some (remUSE e)) :: remUSDs ds
  | (n, none) :: ds => (n, none) :: remUSDs ds

def remUSSs : List Stmt → List Stmt
  | [] => []
  | s :: ss =>
    if isUseStrict s then remUSSs ss else remUSS s :: remUSSs ss
end

/-- Remove all `'use strict'` directives from a program. -/
def removeUseStrict (prog : List Stmt) : List Stmt :=
  remUSSs prog

/-- JS `Set` of the collected property names, in first-occurrence order. -/
def dedupStr (l : List String) : List String :=
  l.foldl addUnique []

/-- `destructureSharedParameter` (esm-to-iife, lines 138–235): locate the
shared (last) parameter of the wrapper's function expression; collect all
property accesses on it; take the recorded import mappings, or — when none
were recorded — infer a mapping from the observed accesses (each property
mapped to itself); if the effective mapping is empty return the code
unchanged; otherwise replace the parameter with the destructuring pattern,
rewrite every collected access to its local name, and drop `'use strict'`
directives. -/
def destructureSharedParameter (prog : List Stmt)
    (mappings : List (String × String)) : List Stmt :=
  match findSharedParam prog with
  | none => prog
  | some p =>
    let props := collectProps p prog
    let effective :=
      if mappings.isEmpty then (dedupStr props).map (fun q => (q, q)) else mappings
    if effective.isEmpty then prog
    else
      let importToLocal := effective.foldl (fun m e => setAssoc m e.1 e.2) []
      let pat := Pat.pobj effective
      removeUseStrict
        (rewriteAccesses (fun q => lookupD importToLocal q q) p
          (replaceParamFirst pat prog))

/-- Observation: destructuring patterns among a parameter list. -/
def patsOfParams (ps : List Pat) : List (List (String × String)) :=
  ps.filterMap (fun p => match p with | .pobj es => some es | .pid _ => none)

mutual
/-- Observation: all destructuring patterns occurring as function
parameters anywhere in an expression, in document order.  Used to state
what recovery installs (wrapper output before recovery contains none). -/
def patsE : Expr → List (List (String × String))
  | .ident _ => []
  | .strLit _ => []
  | .member o _ _ => patsE o
  | .call f args => patsE f ++ patsEs args
  | .funcExpr ps b => patsOfParams ps ++ patsSs b
  | .objLit _ => []

def patsEs : List Expr → List (List (String × String))
  | [] => []
  | e :: es => patsE e ++ patsEs es

def patsS : Stmt → List (List (String × String))
  | .importDecl _ _ => []
  | .varDecl ds => patsDs ds
  | .funDecl _ ps b => patsOfParams ps ++ patsSs b
  | .classDecl _ => []
  | .exportDeclStmt inner => patsS inner
  | .exportSpecs _ _ => []
  | .exportDefault e => patsE e
  | .exprStmt e => patsE e

def patsDs : List (String × Option Expr) → List (List (String × String))
  | [] => []
  | (_, some e) :: ds => patsE e ++ patsDs ds
  | (_, none) :: ds => patsDs ds

def patsSs : List Stmt → List (List (String × String))
  | [] => []
  | s :: ss => patsS s ++ patsSs ss
end

/-- Observation: all destructuring patterns in function-parameter position
of a program. -/
def collectPatterns (prog : List Stmt) : List (List (String × String)) :=
  patsSs prog

/-- The configuration consumed by `convertToIife`'s globals closure
(esm-to-iife).  `skipRequireGlobals` is `false` when the option is unset
(JS `undefined` is falsy there). -/
structure GlobalsEnv where
  globalName : Option String
  globals : List (String × String)
  sharedGlobalPath : Option String
  sharedChunkFileName : Option String
  skipRequireGlobals : Bool

/-- The wrapper's own-global check: `globalName && (id === globalName ||
globalName.startsWith(id + '.'))`. -/
def ownGlobalMatch (globalName : Option String) (id : String) : Bool :=
  match globalName with
  | some g => id == g || (id ++ ".").data.isPrefixOf g.data
  | none => false

/-- The wrapper's shared-chunk check: when a shared global path is
configured, any id containing `__shared__`, or containing the shared chunk
file name with `.js` stripped, resolves to the shared global path. -/
def sharedChunkMatch (sharedGlobalPath : Option String)
    (sharedChunkFileName : Option String) (id : String) : Bool :=
  sharedGlobalPath.isSome &&
  (containsJS id SHARED_CHUNK_NAME ||
   (match sharedChunkFileName with
    | some fn => containsJS id (stripJsSuffix fn)
    | none => false))

/-- The error message thrown for an external id with no global mapping. -/
def missingGlobalMessage (id : String) : String :=
  "[iife-split] Missing global for external \"" ++ id ++
  "\". IIFE builds require all externals to have a global mapping. " ++
  "Add it to output.globals in your Rollup config, e.g.: globals: \x7b '" ++
  id ++ "': 'SomeGlobalName' \x7d"

/-- The `rollupGlobals` closure of `convertToIife` (esm-to-iife, lines
246–282).  `.ok (some g)` supplies the global name `g`; `.ok none` returns
`undefined`, letting the host bundler generate a sanitized global name;
`.error` is the thrown missing-global error. -/
def rollupGlobals (env : GlobalsEnv) (id : String) : Except String (Option String) :=
  if ownGlobalMatch env.globalName id then .ok (some id)
  else if sharedChunkMatch env.sharedGlobalPath env.sharedChunkFileName id then
    .ok env.sharedGlobalPath
  else
    match lookupAssoc env.globals id with
    | some g => .ok (some g)
    | none =>
      if env.skipRequireGlobals then .ok none
      else .error (missingGlobalMessage id)

/-- The build-engine resource events of one `convertToIife` invocation. -/
inductive BuildEvent where
  | rollupCall
  | generateCall
  | closeCall
deriving DecidableEq, Repr

/-- The straight-line effectful skeleton of `convertToIife` (esm-to-iife,
lines 284–298): `const bundle = await rollup(...)`, then `await
bundle.generate(...)`, then `await bundle.close()`, with no try/finally.
A rejection of `bundle.generate` propagates immediately, so the events of a
run are cut off at the failing step. -/
def convertToIifeTrace (generateThrows : Bool) : List BuildEvent × Bool :=
  if generateThrows then ([.rollupCall, .generateCall], false)
  else ([.rollupCall, .generateCall, .closeCall], true)

/-- Is this statement a var/fun/class declaration?  (The only statements a
parser places under `export <declaration>`.) -/
def declLike : Stmt → Bool
  | .varDecl _ => true
  | .funDecl _ _ _ => true
  | .classDecl _ => true
  | _ => false

/-- Well-formedness of a shared-chunk statement for the collision-freedom
property: its imports are external (the shared chunk, being the leaf of the
chunk graph, has no relative imports) and export declarations wrap actual
declarations. -/
def sharedSideOk : Stmt → Bool
  | .importDecl src _ => isExternalSource src
  | .exportDeclStmt inner => declLike inner
  | _ => true

/-- Well-formedness of a primary-chunk statement for the collision-freedom
property: each import is either external or an import of the shared chunk,
and export declarations wrap actual declarations. -/
def primarySideOk (sharedFileName : String) : Stmt → Bool
  | .importDecl src _ => isExternalSource src || isSharedChunkSource src sharedFileName
  | .exportDeclStmt inner => declLike inner
  | _ => true

/-- Is this statement an import of the shared chunk? -/
def isSharedImportStmt (sharedFileName : String) : Stmt → Bool
  | .importDecl src _ => isSharedChunkSource src sharedFileName
  | _ => false

/-- Top-level binders of the statements satisfying `p`, with multiplicity.
Together with its complement this partitions `boundNames`. -/
def boundWhere (p : Stmt → Bool) (prog : List Stmt) : List String :=
  (prog.map (fun st => if p st then boundS st else [])).flatten

/-- The `__shared_default__` binder a statement gains under `stripExports`. -/
def dfltS : Stmt → List String
  | .exportDefault _ => ["__shared_default__"]
  | _ => []

/-- All `__shared_default__` binders `stripExports` adds to a program. -/
def dflts (prog : List Stmt) : List String :=
  (prog.map dfltS).flatten

/-- The reference-chunk imports with a given source, as looked up by
`removeOrRewriteDuplicateExternalImports`. -/
def dedupRefsFor (refImports : List ExternalImport) (src : String) :
    List ExternalImport :=
  refImports.filter (fun r => r.source == src)

/-- The (zero or one) output statements the deduplication step produces
from one input statement. -/
def dedupOutS (refImports : List ExternalImport) (st : Stmt) : List Stmt :=
  match st with
  | .importDecl src specs =>
    if isExternalSource src && !(dedupRefsFor refImports src).isEmpty then
      (processImportStmt [] src specs (dedupRefsFor refImports src)).1.toList
    else [st]
  | st => [st]

/-- The local bindings the deduplication step removes from one statement. -/
def dedupRemovedS (refImports : List ExternalImport) (st : Stmt) : List String :=
  match st with
  | .importDecl src specs =>
    if isExternalSource src && !(dedupRefsFor refImports src).isEmpty then
      (specs.filter
        (fun s => (findDupMatch s (dedupRefsFor refImports src)).isSome)).map localOfSpec
    else []
  | _ => []

/-- All local bindings the deduplication step removes from a program. -/
def dedupRemoved (prog : List Stmt) (refImports : List ExternalImport) : List String :=
  (prog.map (dedupRemovedS refImports)).flatten

/-- C1 counterexample input: the primary already binds the reserved rename
target `__shared$x` while both chunks bind `x`. -/
def primaryClash : List Stmt :=
  [.varDecl [("__shared$x", none)], .varDecl [("x", none)]]

/-- C1 counterexample input: the shared chunk binding `x`. -/
def sharedClash : List Stmt :=
  [.varDecl [("x", none)]]

/-- C1 witness input: a primary chunk with an external import, a shared
chunk import and a declaration. -/
def primaryOkEx : List Stmt :=
  [.importDecl "react" [.named "useState" "useState"],
   .importDecl "./__shared__-abc.js" [.named "helper" "helper"],
   .varDecl [("main", some (.call (.ident "helper") []))]]

/-- C1 witness input: a shared chunk with an external import, an exported
function and an exported declaration colliding with the primary's binding
for its `useState` import. -/
def sharedOkEx : List Stmt :=
  [.importDecl "react" [.named "useMemo" "useMemo"],
   .exportDeclStmt (.funDecl "helper" [] [.exprStmt (.call (.ident "useMemo") [])]),
   .exportDeclStmt (.varDecl [("useState", some (.strLit "collides"))])]

/-- C8 counterexample input: a module whose only statement is a default
export. -/
def defaultOnlyEx : List Stmt :=
  [.exportDefault (.strLit "1")]

/-- C6 example: a satellite wrapper accessing its shared (last) parameter
through two distinct properties. -/
def wrapperAccessEx : List Stmt :=
  [.exprStmt (.call
    (.funcExpr [.pid "exports", .pid "__shared__xxx_js"]
      [.exprStmt (.strLit "use strict"),
       .exprStmt (.call (.member (.ident "__shared__xxx_js") "s" false) []),
       .exprStmt (.member (.ident "__shared__xxx_js") "S" false)])
    [.objLit [], .member (.ident "MyLib") "Shared" false])]

/-- C6 counterexample input: a wrapper whose shared parameter has zero
property accesses. -/
def wrapperNoAccessEx : List Stmt :=
  [.exprStmt (.call
    (.funcExpr [.pid "exports", .pid "dep"] [.exprStmt (.strLit "use strict")])
    [.objLit [], .ident "Dep"])]

/-- C5 witness input: the primary's `react` import specifiers. -/
def dedupSpecsEx : List ImpSpec :=
  [.named "useState" "useStatePrimary", .named "useMemo" "useMemo"]

/-- C5 witness input: the shared chunk's `react` import. -/
def dedupRefsEx : List ExternalImport :=
  [⟨"react", [.named "useState" "useStateShared"]⟩]

/-- C7 witness input: a wrapper configuration with no mapping for `moment`
and `skipRequireGlobals` unset. -/
def strictEnvEx : GlobalsEnv :=
  ⟨some "MyLib", [("react", "React")], some "MyLib.Shared", some "__shared__-abc.js", false⟩

/-- C7 witness input: the same configuration with `skipRequireGlobals`
enabled. -/
def lenientEnvEx : GlobalsEnv :=
  ⟨some "MyLib", [("react", "React")], some "MyLib.Shared", some "__shared__-abc.js", true⟩

/-- Parser-shape well-formedness of one statement: `export <declaration>`
only ever wraps a var/fun/class declaration. -/
def exportWf : Stmt → Bool
  | .exportDeclStmt inner => declLike inner
  | _ => true

/-- Is this statement an `export default`? -/
def isDefaultStmt : Stmt → Bool
  | .exportDefault _ => true
  | _ => false

/-- The external import bindings one statement contributes to
`extractExternalImportBindings`. -/
def extBindNamesOf : Stmt → List String
  | .importDecl src specs =>
    if isExternalSource src then specs.map localOfSpec else []
  | _ => []

theorem contains_iff_mem (l : List String) (a : String) :
    l.contains a = true ↔ a ∈ l := by
  simp [List.contains, List.elem_iff]

theorem lookupAssoc_setAssoc (m : List (String × String)) (k v n : String) :
    lookupAssoc (setAssoc m k v) n = if k = n then some v else lookupAssoc m n := by
  induction m with
  | nil => simp [setAssoc, lookupAssoc, beq_iff_eq]
  | cons hd tl ih =>
    obtain ⟨a, b⟩ := hd
    by_cases hak : a = k
    · subst hak
      simp only [setAssoc, beq_iff_eq, if_pos rfl, lookupAssoc]
      by_cases han : a = n <;> simp [beq_iff_eq, han]
    · simp only [setAssoc, beq_iff_eq, if_neg hak, lookupAssoc]
      by_cases han : a = n
      · subst han
        have : ¬ k = a := fun h => hak h.symm
        simp [beq_iff_eq, this]
      · simp [beq_iff_eq, han, ih]

theorem lookupAssoc_none_of_nil (n : String) : lookupAssoc [] n = none := rfl

theorem renApp_nil (n : String) : renApp [] n = n := rfl

theorem renApp_of_lookup_none {m : List (String × String)} {n : String}
    (h : lookupAssoc m n = none) : renApp m n = n := by
  simp [renApp, lookupD, h]

theorem renApp_of_lookup_some {m : List (String × String)} {n v : String}
    (h : lookupAssoc m n = some v) : renApp m n = v := by
  simp [renApp, lookupD, h]

theorem mem_addUnique {l : List String} {x n : String} :
    n ∈ addUnique l x ↔ n ∈ l ∨ n = x := by
  unfold addUnique
  by_cases h : l.contains x = true
  · rw [if_pos h]
    have hx : x ∈ l := (contains_iff_mem l x).mp h
    constructor
    · exact fun hn => Or.inl hn
    · rintro (hn | rfl)
      · exact hn
      · exact hx
  · simp only [h]
    simp [List.mem_append]

theorem hasSharedPfx_target (n : String) :
    hasSharedPfx ("__shared$" ++ n) = true := by
  have h1 : "__shared".data <+: "__shared$".data := by decide
  have h2 : "__shared$".data <+: ("__shared$" ++ n).data := by
    rw [String.data_append]
    exact List.prefix_append _ _
  simp only [hasSharedPfx]
  exact List.isPrefixOf_iff_prefix.mpr (h1.trans h2)

theorem hasSharedPfx_default : hasSharedPfx "__shared_default__" = true := by decide

theorem sharedTarget_inj {n₁ n₂ : String}
    (h : "__shared$" ++ n₁ = "__shared$" ++ n₂) : n₁ = n₂ := by
  have hd := congrArg String.data h
  rw [String.data_append, String.data_append] at hd
  exact String.ext (List.append_cancel_left hd)

theorem sharedTarget_ne_default (n : String) :
    "__shared$" ++ n ≠ "__shared_default__" := by
  intro h
  have hd := congrArg String.data h
  rw [String.data_append] at hd
  have hp : "__shared$".data <+: "__shared_default__".data := by
    rw [← hd]; exact List.prefix_append _ _
  have : ("__shared$".data.isPrefixOf "__shared_default__".data) = true :=
    List.isPrefixOf_iff_prefix.mpr hp
  revert this
  decide

/-- **C10.**  The merge engine treats an import source as referring to the
shared chunk exactly when it contains the substring `__shared__` or
contains the shared chunk's file name with a trailing `.js` stripped —
substring containment, not path equality.  Consequently an import from an
unrelated module whose path merely contains such a substring is also
classified as a shared-chunk import and, as the last conjunct shows, is
removed (with its references rewritten) by the merge. -/
theorem shared_chunk_source_is_substring_match :
    (∀ (source fileName : String),
      isSharedChunkSource source fileName = true ↔
        ("__shared__".data <:+: source.data ∨
         (stripJsSuffix fileName).data <:+: source.data))
    ∧ isSharedChunkSource "./utils/__shared__-helpers.js" "unrelated-chunk.js" = true
    ∧ removeSharedImportsAndRewriteRefs
        [.importDecl "./utils/__shared__-helpers.js" [.named "a" "a"]]
        "unrelated-chunk.js" [] = [] := by
  refine ⟨fun source fileName => ?_, by decide, rfl⟩
  simp [isSharedChunkSource, containsJS, SHARED_CHUNK_NAME]

/-- **C4.**  When `renameIdentifiers` hits an import specifier whose local
binding is a rename-map key: a named specifier keeps its imported
(external) name and only changes the local binding; a default-import
specifier is converted to the named form `default as newLocal`; a
namespace specifier's local binding is renamed in place; and the specifier
is rewritten structurally in one step (the walker skips its children), so
its internal identifiers — in particular the imported name — are not
independently renamed, whatever other entries the map has. -/
theorem rename_import_specifier_rewrites (m : List (String × String))
    (imported loc nn src : String) (specs : List ImpSpec)
    (h : lookupAssoc m loc = some nn) :
    rnSpec m (.named imported loc) = .named imported nn
    ∧ rnSpec m (.defaultSpec loc) = .named "default" nn
    ∧ rnSpec m (.starSpec loc) = .starSpec nn
    ∧ rnStmt m (.importDecl src specs) = .importDecl src (specs.map (rnSpec m)) := by
  refine ⟨?_, ?_, ?_, rfl⟩ <;> simp [rnSpec, h]

/-- Witness for C4 at a concrete map that also contains the imported name
as a key, showing the imported name survives untouched. -/
theorem rename_import_specifier_rewrites_witness :
    rnSpec [("imp", "clobbered"), ("old", "new")] (.named "imp" "old") = .named "imp" "new"
    ∧ rnSpec [("imp", "clobbered"), ("old", "new")] (.defaultSpec "old") = .named "default" "new"
    ∧ rnSpec [("imp", "clobbered"), ("old", "new")] (.starSpec "old") = .starSpec "new"
    ∧ rnStmt [("imp", "clobbered"), ("old", "new")] (.importDecl "pkg" [.named "imp" "old"])
        = .importDecl "pkg" ([.named "imp" "old"].map (rnSpec [("imp", "clobbered"), ("old", "new")])) :=
  rename_import_specifier_rewrites [("imp", "clobbered"), ("old", "new")]
    "imp" "old" "new" "pkg" [.named "imp" "old"] (by decide)

/-- **C9 counterexample.**  In the run where `bundle.generate` rejects, the
throwaway build instance is never closed: there is no try/finally around
the generate call, so the claim that every exit path closes the instance is
false. -/
theorem convert_close_skipped_on_failure :
    BuildEvent.closeCall ∉ (convertToIifeTrace true).1 := by
  decide

/-- **C9 amended.**  `convertToIife` closes its throwaway build instance
exactly on the success path: when `bundle.generate` resolves, `close` runs
before the promise settles, but when `bundle.generate` rejects the error
propagates immediately and `close` is never invoked. -/
theorem convert_close_iff_generate_ok :
    ∀ generateThrows : Bool,
      (BuildEvent.closeCall ∈ (convertToIifeTrace generateThrows).1 ↔ generateThrows = false)
      ∧ ((convertToIifeTrace generateThrows).2 = true ↔ generateThrows = false) := by
  intro b
  cases b <;> exact ⟨by decide, by decide⟩

/-- **C7.**  During wrapping, for an external module id that matches
neither the wrapper's own global name nor the shared chunk and has no entry
in the configured globals map: with `skipRequireGlobals` false (or unset,
which the embedding folds into `false`), the globals closure throws the
missing-global error, whose message names the offending id; with
`skipRequireGlobals` true it returns `undefined` (`.ok none`), letting the
host bundler auto-generate a sanitized global name instead of erroring. -/
theorem missing_global_fatal_or_skipped (env : GlobalsEnv) (id : String)
    (hOwn : ownGlobalMatch env.globalName id = false)
    (hShared : sharedChunkMatch env.sharedGlobalPath env.sharedChunkFileName id = false)
    (hMap : lookupAssoc env.globals id = none) :
    (env.skipRequireGlobals = false →
      rollupGlobals env id = .error (missingGlobalMessage id)
      ∧ id.data <:+: (missingGlobalMessage id).data)
    ∧ (env.skipRequireGlobals = true → rollupGlobals env id = .ok none) := by
  constructor
  · intro hskip
    constructor
    · simp [rollupGlobals, hOwn, hShared, hMap, hskip]
    · unfold missingGlobalMessage
      simp only [String.data_append, List.append_assoc]
      exact List.infix_append' _ _ _
  · intro hskip
    simp [rollupGlobals, hOwn, hShared, hMap, hskip]

/-- Witness for C7: the external id `moment` with no configured global, in
a strict and in a lenient configuration. -/
theorem missing_global_fatal_or_skipped_witness :
    (rollupGlobals strictEnvEx "moment" = .error (missingGlobalMessage "moment")
      ∧ "moment".data <:+: (missingGlobalMessage "moment").data)
    ∧ rollupGlobals lenientEnvEx "moment" = .ok none :=
  ⟨(missing_global_fatal_or_skipped strictEnvEx "moment"
      (by decide) (by decide) (by decide)).1 rfl,
   (missing_global_fatal_or_skipped lenientEnvEx "moment"
      (by decide) (by decide) (by decide)).2 rfl⟩

theorem lookup_fold_set (C : String → Bool) (t : String → String)
    (l : List String) (acc : List (String × String)) (k : String) :
    lookupAssoc
      (l.foldl (fun m n => if C n then setAssoc m n (t n) else m) acc) k =
    if l.contains k && C k then some (t k) else lookupAssoc acc k := by
  induction l generalizing acc with
  | nil => simp
  | cons a l ih =>
    rw [List.foldl_cons, ih]
    have hstep_ne : a ≠ k →
        lookupAssoc (if C a = true then setAssoc acc a (t a) else acc) k =
          lookupAssoc acc k := by
      intro hak
      by_cases hCa : C a = true
      · simp [hCa, lookupAssoc_setAssoc, hak]
      · simp [hCa]
    by_cases hC : C k = true
    · by_cases hl : k ∈ l
      · have hl' : l.contains k = true := (contains_iff_mem l k).mpr hl
        simp [hl', hC, List.contains_cons, hl]
      · have hl' : ¬ l.contains k = true := fun h => hl ((contains_iff_mem l k).mp h)
        by_cases hak : a = k
        · subst hak
          have hCa : C a = true := hC
          simp [hC, hCa, List.contains_cons, lookupAssoc_setAssoc, hl]
        · have hka : ¬ k = a := fun h => hak h.symm
          simp only [Bool.and_eq_true] at *
          simp [List.contains_cons, beq_iff_eq, hka, hl', hstep_ne hak, hC]
    · have hCk : C k = false := by simpa using hC
      simp only [hCk, Bool.and_false, Bool.false_eq_true, if_false]
      by_cases hak : a = k
      · subst hak
        simp [hCk]
      · exact hstep_ne hak

theorem lookup_fold_set_guarded (C : String → Bool) (t : String → String)
    (l : List String) (acc : List (String × String)) (k : String)
    (hacc : ∀ j, lookupAssoc acc j = none ∨ lookupAssoc acc j = some (t j)) :
    lookupAssoc
      (l.foldl
        (fun m n => if C n && (lookupAssoc m n).isNone then setAssoc m n (t n) else m)
        acc) k =
    if l.contains k && C k then some (t k) else lookupAssoc acc k := by
  induction l generalizing acc with
  | nil => simp
  | cons a l ih =>
    rw [List.foldl_cons]
    have hacc' : ∀ j,
        lookupAssoc (if C a && (lookupAssoc acc a).isNone then setAssoc acc a (t a) else acc) j = none ∨
        lookupAssoc (if C a && (lookupAssoc acc a).isNone then setAssoc acc a (t a) else acc) j = some (t j) := by
      intro j
      by_cases hg : (C a && (lookupAssoc acc a).isNone) = true
      · rw [if_pos hg, lookupAssoc_setAssoc]
        by_cases haj : a = j
        · subst haj; simp
        · simp only [if_neg haj]; exact hacc j
      · rw [if_neg hg]; exact hacc j
    rw [ih _ hacc']
    by_cases hC : C k = true
    · by_cases hl : k ∈ l
      · have hl' : l.contains k = true := (contains_iff_mem l k).mpr hl
        simp [hl', hC, List.contains_cons, hl]
      · by_cases hak : a = k
        · subst hak
          have hres : lookupAssoc
              (if C a && (lookupAssoc acc a).isNone then setAssoc acc a (t a) else acc) a =
              some (t a) := by
            by_cases hg : (C a && (lookupAssoc acc a).isNone) = true
            · rw [if_pos hg, lookupAssoc_setAssoc]; simp
            · rw [if_neg hg]
              rcases hacc a with h | h
              · exact absurd (by simp [hC, h]) hg
              · exact h
          have hl' : l.contains a = false := by
            simpa using fun h => hl ((contains_iff_mem l a).mp h)
          have hcond : (l.contains a && C a) = false := by rw [hl', Bool.false_and]
          rw [hcond]
          simp only [Bool.false_eq_true, if_false]
          rw [hres, if_pos (by simp [List.contains_cons, hC])]
        · have hka : ¬ k = a := fun h => hak h.symm
          have hl' : l.contains k = false := by
            simpa using fun h => hl ((contains_iff_mem l k).mp h)
          have hunch : lookupAssoc
              (if C a && (lookupAssoc acc a).isNone then setAssoc acc a (t a) else acc) k =
              lookupAssoc acc k := by
            by_cases hg : (C a && (lookupAssoc acc a).isNone) = true
            · rw [if_pos hg, lookupAssoc_setAssoc, if_neg hak]
            · rw [if_neg hg]
          have hcond : (l.contains k && C k) = false := by rw [hl', Bool.false_and]
          have hcond2 : ((a :: l).contains k && C k) = false := by
            have : (a :: l).contains k = false := by
              rw [List.contains_cons, hl', Bool.or_false]
              exact beq_eq_false_iff_ne.mpr hka
            rw [this, Bool.false_and]
          rw [hcond, hcond2]
          simp only [Bool.false_eq_true, if_false]
          exact hunch
    · have hCk : C k = false := by simpa using hC
      simp only [hCk, Bool.and_false, Bool.false_eq_true, if_false]
      have hunch : lookupAssoc
          (if C a && (lookupAssoc acc a).isNone then setAssoc acc a (t a) else acc) k =
          lookupAssoc acc k := by
        by_cases hg : (C a && (lookupAssoc acc a).isNone) = true
        · have hak : a ≠ k := by
            intro h; subst h
            simp [hCk] at hg
          rw [if_pos hg, lookupAssoc_setAssoc, if_neg hak]
        · rw [if_neg hg]
      rw [hunch]

theorem lookup_buildCollisionRenameMap (sd sb pd pb : List String) (k : String) :
    lookupAssoc (buildCollisionRenameMap sd sb pd pb) k =
    if (sd.contains k || sb.contains k) && (pd.contains k || pb.contains k)
    then some ("__shared$" ++ k) else none := by
  unfold buildCollisionRenameMap
  have h1 : ∀ j, lookupAssoc
      (sd.foldl
        (fun m n =>
          if pd.contains n || pb.contains n then setAssoc m n ("__shared$" ++ n) else m)
        []) j =
      if sd.contains j && (pd.contains j || pb.contains j)
      then some ("__shared$" ++ j) else none := by
    intro j
    rw [lookup_fold_set (fun n => pd.contains n || pb.contains n)
      (fun n => "__shared$" ++ n) sd [] j]
    rfl
  have hacc : ∀ j, lookupAssoc
      (sd.foldl
        (fun m n =>
          if pd.contains n || pb.contains n then setAssoc m n ("__shared$" ++ n) else m)
        []) j = none ∨
      lookupAssoc
        (sd.foldl
          (fun m n =>
            if pd.contains n || pb.contains n then setAssoc m n ("__shared$" ++ n) else m)
          []) j = some ("__shared$" ++ j) := by
    intro j
    rw [h1 j]
    by_cases h : (sd.contains j && (pd.contains j || pb.contains j)) = true
    · right; rw [if_pos h]
    · left; rw [if_neg h]
  rw [lookup_fold_set_guarded (fun n => pd.contains n || pb.contains n)
    (fun n => "__shared$" ++ n) sb _ k hacc, h1 k]
  have msd := contains_iff_mem sd k
  have msb := contains_iff_mem sb k
  have mpd := contains_iff_mem pd k
  have mpb := contains_iff_mem pb k
  by_cases hsd : sd.contains k = true <;> by_cases hsb : sb.contains k = true <;>
    by_cases hpd : pd.contains k = true <;> by_cases hpb : pb.contains k = true <;>
    simp_all

/-- **C3.**  The collision resolver maps a name to `__shared$` + name
exactly when the name lies both in the shared chunk's declarations or
bindings of imports and in the (deduplicated) primary chunk's declarations
or bindings of imports, and records no rename for any other name; and this
is precisely the map `mergeSharedIntoPrimary` computes. -/
theorem collision_resolver_exact (sd sb pd pb : List String) (n : String) :
    (lookupAssoc (buildCollisionRenameMap sd sb pd pb) n =
      if (n ∈ sd ∨ n ∈ sb) ∧ (n ∈ pd ∨ n ∈ pb)
      then some ("__shared$" ++ n) else none)
    ∧ ∀ primary shared : List Stmt,
        collisionMapOf primary shared =
          buildCollisionRenameMap
            (extractTopLevelDeclarations shared)
            (extractExternalImportBindings shared)
            (extractTopLevelDeclarations (dedupedPrimary primary shared))
            (extractExternalImportBindings (dedupedPrimary primary shared)) := by
  constructor
  · rw [lookup_buildCollisionRenameMap]
    by_cases h : (n ∈ sd ∨ n ∈ sb) ∧ (n ∈ pd ∨ n ∈ pb)
    · rw [if_pos h]
      have hb : ((sd.contains n || sb.contains n) && (pd.contains n || pb.contains n)) = true := by
        obtain ⟨h1, h2⟩ := h
        have b1 : (sd.contains n || sb.contains n) = true := by
          rcases h1 with h1 | h1
          · rw [(contains_iff_mem sd n).mpr h1, Bool.true_or]
          · rw [(contains_iff_mem sb n).mpr h1, Bool.or_true]
        have b2 : (pd.contains n || pb.contains n) = true := by
          rcases h2 with h2 | h2
          · rw [(contains_iff_mem pd n).mpr h2, Bool.true_or]
          · rw [(contains_iff_mem pb n).mpr h2, Bool.or_true]
        rw [b1, b2, Bool.and_true]
      rw [if_pos hb]
    · rw [if_neg h]
      have hb : ¬ ((sd.contains n || sb.contains n) && (pd.contains n || pb.contains n)) = true := by
        intro hcon
        apply h
        have := Bool.and_eq_true _ _ |>.mp hcon
        obtain ⟨b1, b2⟩ := this
        constructor
        · rcases Bool.or_eq_true _ _ |>.mp b1 with hb | hb
          · exact Or.inl ((contains_iff_mem sd n).mp hb)
          · exact Or.inr ((contains_iff_mem sb n).mp hb)
        · rcases Bool.or_eq_true _ _ |>.mp b2 with hb | hb
          · exact Or.inl ((contains_iff_mem pd n).mp hb)
          · exact Or.inr ((contains_iff_mem pb n).mp hb)
      rw [if_neg hb]
  · intro primary shared
    rfl

theorem mem_fold_addUnique (names : List String) (acc : List String) (n : String) :
    n ∈ names.foldl addUnique acc ↔ n ∈ acc ∨ n ∈ names := by
  induction names generalizing acc with
  | nil => simp
  | cons a names ih =>
    rw [List.foldl_cons, ih, mem_addUnique]
    constructor
    · rintro ((h | h) | h)
      · exact Or.inl h
      · exact Or.inr (by simp [h])
      · exact Or.inr (by simp [h])
    · rintro (h | h)
      · exact Or.inl (Or.inl h)
      · rcases List.mem_cons.mp h with h | h
        · exact Or.inl (Or.inr h)
        · exact Or.inr h

theorem mem_fold_names (f : Stmt → List String) (l : List Stmt)
    (acc : List String) (n : String) :
    n ∈ l.foldl (fun ds st => (f st).foldl addUnique ds) acc ↔
      n ∈ acc ∨ ∃ st ∈ l, n ∈ f st := by
  induction l generalizing acc with
  | nil => simp
  | cons a l ih =>
    rw [List.foldl_cons, ih, mem_fold_addUnique]
    constructor
    · rintro ((h | h) | ⟨st, hst, hn⟩)
      · exact Or.inl h
      · exact Or.inr ⟨a, by simp, h⟩
      · exact Or.inr ⟨st, by simp [hst], hn⟩
    · rintro (h | ⟨st, hst, hn⟩)
      · exact Or.inl (Or.inl h)
      · rcases List.mem_cons.mp hst with rfl | hst'
        · exact Or.inl (Or.inr hn)
        · exact Or.inr ⟨st, hst', hn⟩

theorem mem_extractTLD (prog : List Stmt) (n : String) :
    n ∈ extractTopLevelDeclarations prog ↔ ∃ st ∈ prog, n ∈ tldNamesOf st := by
  rw [extractTopLevelDeclarations, mem_fold_names]
  simp

theorem extractExternalImportBindings_eq_fold (prog : List Stmt) :
    extractExternalImportBindings prog =
      prog.foldl (fun bs st => (extBindNamesOf st).foldl addUnique bs) [] := by
  rw [extractExternalImportBindings]
  have general : ∀ (l : List Stmt) (acc : List String),
      l.foldl
        (fun bs st =>
          match st with
          | .importDecl src specs =>
            if isExternalSource src then (specs.map localOfSpec).foldl addUnique bs else bs
          | _ => bs) acc =
      l.foldl (fun bs st => (extBindNamesOf st).foldl addUnique bs) acc := by
    intro l
    induction l with
    | nil => intro acc; rfl
    | cons a l ih =>
      intro acc
      rw [List.foldl_cons, List.foldl_cons, ih]
      congr 1
      cases a <;> simp [extBindNamesOf]
      case importDecl src specs =>
        by_cases hx : isExternalSource src = true <;> simp [hx]
  exact general prog []

theorem mem_extractExternalImportBindings (prog : List Stmt) (n : String) :
    n ∈ extractExternalImportBindings prog ↔ ∃ st ∈ prog, n ∈ extBindNamesOf st := by
  rw [extractExternalImportBindings_eq_fold, mem_fold_names]
  simp

theorem extractExports_snd (prog : List Stmt) :
    (extractExports prog).2 = prog.any isDefaultStmt := by
  rw [extractExports]
  have general : ∀ (l : List Stmt) (acc : List (String × String) × Bool),
      (l.foldl
        (fun acc st =>
          match st with
          | .exportDefault _ => (acc.1 ++ exportsOf st, true)
          | _ => (acc.1 ++ exportsOf st, acc.2)) acc).2 =
      (acc.2 || l.any isDefaultStmt) := by
    intro l
    induction l with
    | nil => intro acc; simp
    | cons a l ih =>
      intro acc
      rw [List.foldl_cons, ih, List.any_cons]
      cases a <;> simp [isDefaultStmt, Bool.or_assoc]
  rw [general]
  simp

/-- **C8 counterexample.**  On a module consisting of a single default
export, stripping changes the declared-name set: `stripExports` rewrites
`export default e` to `const __shared_default__ = e`, which introduces the
fresh top-level declaration `__shared_default__`. -/
theorem strip_changes_declared_names :
    extractTopLevelDeclarations (stripExports defaultOnlyEx) ≠
      extractTopLevelDeclarations defaultOnlyEx := by
  decide

/-- **C8 amended.**  For a parseable module (export declarations wrap
actual declarations), re-running the declaration extractor on the stripped
output yields the same declared-name set except that a default export
introduces the one extra name `__shared_default__`; with no default export
the sets agree exactly. -/
theorem strip_preserves_declared_names (prog : List Stmt)
    (hwf : prog.all exportWf = true) (n : String) :
    n ∈ extractTopLevelDeclarations (stripExports prog) ↔
      (n ∈ extractTopLevelDeclarations prog ∨
        (n = "__shared_default__" ∧ (extractExports prog).2 = true)) := by
  rw [mem_extractTLD, mem_extractTLD, extractExports_snd]
  rw [stripExports]
  constructor
  · rintro ⟨st', hst', hn⟩
    rcases List.mem_filterMap.mp hst' with ⟨st, hst, hσ⟩
    have hwfst : exportWf st = true := List.all_eq_true.mp hwf st hst
    cases st with
    | importDecl src specs =>
      cases hσ; exact Or.inl ⟨_, hst, hn⟩
    | varDecl ds =>
      cases hσ; exact Or.inl ⟨_, hst, hn⟩
    | funDecl nm ps b =>
      cases hσ; exact Or.inl ⟨_, hst, hn⟩
    | classDecl nm =>
      cases hσ; exact Or.inl ⟨_, hst, hn⟩
    | exportDeclStmt istmt =>
      cases hσ
      cases st' with
      | varDecl ds =>
        refine Or.inl ⟨Stmt.exportDeclStmt (Stmt.varDecl ds), hst, ?_⟩
        simpa [tldNamesOf] using hn
      | funDecl nm ps b =>
        refine Or.inl ⟨Stmt.exportDeclStmt (Stmt.funDecl nm ps b), hst, ?_⟩
        simpa [tldNamesOf] using hn
      | classDecl nm =>
        refine Or.inl ⟨Stmt.exportDeclStmt (Stmt.classDecl nm), hst, ?_⟩
        simpa [tldNamesOf] using hn
      | importDecl src specs => exact absurd hwfst (by simp [exportWf, declLike])
      | exportDeclStmt istmt2 => exact absurd hwfst (by simp [exportWf, declLike])
      | exportSpecs sp so => exact absurd hwfst (by simp [exportWf, declLike])
      | exportDefault e => exact absurd hwfst (by simp [exportWf, declLike])
      | exprStmt e => exact absurd hwfst (by simp [exportWf, declLike])
    | exportSpecs sp so => cases hσ
    | exportDefault e =>
      cases hσ
      refine Or.inr ⟨?_, ?_⟩
      · simpa [tldNamesOf] using hn
      · exact List.any_eq_true.mpr ⟨_, hst, by simp [isDefaultStmt]⟩
    | exprStmt e =>
      cases hσ; exact Or.inl ⟨_, hst, hn⟩
  · rintro (⟨st, hst, hn⟩ | ⟨rfl, hdef⟩)
    · cases st with
      | importDecl src specs => exact absurd hn (by simp [tldNamesOf])
      | varDecl ds =>
        exact ⟨.varDecl ds, List.mem_filterMap.mpr ⟨_, hst, rfl⟩, hn⟩
      | funDecl nm ps b =>
        exact ⟨.funDecl nm ps b, List.mem_filterMap.mpr ⟨_, hst, rfl⟩, hn⟩
      | classDecl nm =>
        exact ⟨.classDecl nm, List.mem_filterMap.mpr ⟨_, hst, rfl⟩, hn⟩
      | exportDeclStmt istmt =>
        refine ⟨istmt, List.mem_filterMap.mpr ⟨_, hst, rfl⟩, ?_⟩
        have hwfst : exportWf (.exportDeclStmt istmt) = true :=
          List.all_eq_true.mp hwf _ hst
        cases istmt with
        | varDecl ds => simpa [tldNamesOf] using hn
        | funDecl nm ps b => simpa [tldNamesOf] using hn
        | classDecl nm => simpa [tldNamesOf] using hn
        | importDecl src specs => exact absurd hwfst (by simp [exportWf, declLike])
        | exportDeclStmt istmt2 => exact absurd hwfst (by simp [exportWf, declLike])
        | exportSpecs sp so => exact absurd hwfst (by simp [exportWf, declLike])
        | exportDefault e => exact absurd hwfst (by simp [exportWf, declLike])
        | exprStmt e => exact absurd hwfst (by simp [exportWf, declLike])
      | exportSpecs sp so => exact absurd hn (by simp [tldNamesOf])
      | exportDefault e => exact absurd hn (by simp [tldNamesOf])
      | exprStmt e => exact absurd hn (by simp [tldNamesOf])
    · rcases List.any_eq_true.mp hdef with ⟨st, hst, hd⟩
      cases st with
      | exportDefault e =>
        refine ⟨.varDecl [("__shared_default__", some e)],
          List.mem_filterMap.mpr ⟨_, hst, rfl⟩, by simp [tldNamesOf]⟩
      | importDecl src specs => exact absurd hd (by simp [isDefaultStmt])
      | varDecl ds => exact absurd hd (by simp [isDefaultStmt])
      | funDecl nm ps b => exact absurd hd (by simp [isDefaultStmt])
      | classDecl nm => exact absurd hd (by simp [isDefaultStmt])
      | exportDeclStmt istmt => exact absurd hd (by simp [isDefaultStmt])
      | exportSpecs sp so => exact absurd hd (by simp [isDefaultStmt])
      | exprStmt e => exact absurd hd (by simp [isDefaultStmt])

/-- Witness for the amended C8 on a module with one export-wrapped
declaration and one default export. -/
theorem strip_preserves_declared_names_witness :
    "__shared_default__" ∈ extractTopLevelDeclarations
        (stripExports [.exportDeclStmt (.varDecl [("a", none)]), .exportDefault (.strLit "x")]) ↔
      ("__shared_default__" ∈ extractTopLevelDeclarations
          [.exportDeclStmt (.varDecl [("a", none)]), .exportDefault (.strLit "x")] ∨
        ("__shared_default__" = "__shared_default__" ∧
          (extractExports [.exportDeclStmt (.varDecl [("a", none)]),
            .exportDefault (.strLit "x")]).2 = true)) :=
  strip_preserves_declared_names
    [.exportDeclStmt (.varDecl [("a", none)]), .exportDefault (.strLit "x")]
    (by decide) "__shared_default__"

/-- **C2.**  The key set of the shared-object literal is exactly the
needed-exports set: every emitted key is needed, every needed name appears
(with `default` carried by the `__shared_default__` entry when the shared
chunk has a default export), so an export used only by the primary itself
never appears.  The hypothesis reflects the definition of
`NeededExportsSet` in `generateBundle`: it only collects names the shared
chunk actually exports.  The final conjunct pins down where
`mergeSharedIntoPrimary` appends the object: as `const <sharedProp> =
{ ... }` followed by `export { <sharedProp> }`. -/
theorem shared_object_keys_exact (exps : List (String × String)) (hasDef : Bool)
    (cm : List (String × String)) (needed : List String)
    (hcov : ∀ k ∈ needed, k ∈ exps.map Prod.fst ∨ (k = "default" ∧ hasDef = true)) :
    (∀ k, k ∈ (sharedExportEntries exps hasDef cm needed).map Prod.fst ↔ k ∈ needed)
    ∧ (hasDef = true → "default" ∈ needed →
        ("default", "__shared_default__") ∈ sharedExportEntries exps hasDef cm needed)
    ∧ ∀ (primary shared : List Stmt) (sp f : String),
        mergeEntries primary shared needed ≠ [] →
        mergeSharedIntoPrimary primary shared sp needed f =
          stripExports (renameIdentifiers shared (collisionMapOf primary shared)) ++
          renameIdentifiers
            (removeSharedImportsAndRewriteRefs (dedupedPrimary primary shared) f
              (buildExportToLocal (extractExports shared).1 (extractExports shared).2
                (collisionMapOf primary shared)))
            (externalRenameMapOf primary shared) ++
          [Stmt.varDecl [(sp, some (Expr.objLit (mergeEntries primary shared needed)))],
           Stmt.exportSpecs [(sp, sp)] none] := by
  refine ⟨?_, ?_, ?_⟩
  · intro k
    rw [sharedExportEntries, List.map_append, List.map_map, List.mem_append]
    constructor
    · rintro (hk | hk)
      · rcases List.mem_map.mp hk with ⟨el, helf, hke⟩
        rcases List.mem_filter.mp helf with ⟨_, hcont⟩
        have : el.1 = k := by simpa using hke
        rw [← this]
        exact (contains_iff_mem needed el.1).mp hcont
      · by_cases hc : (hasDef && needed.contains "default") = true
        · rw [if_pos hc] at hk
          simp only [List.map_cons, List.map_nil, List.mem_singleton] at hk
          subst hk
          exact (contains_iff_mem needed "default").mp (Bool.and_eq_true _ _ |>.mp hc).2
        · rw [if_neg hc] at hk
          simp at hk
    · intro hk
      rcases hcov k hk with hex | ⟨rfl, hdt⟩
      · left
        rcases List.mem_map.mp hex with ⟨el, hel, hke⟩
        refine List.mem_map.mpr ⟨el, List.mem_filter.mpr ⟨hel, ?_⟩, by simpa using hke⟩
        rw [← hke] at hk
        exact (contains_iff_mem needed el.1).mpr hk
      · right
        have hc : (hasDef && needed.contains "default") = true := by
          rw [hdt, (contains_iff_mem needed "default").mpr hk, Bool.and_true]
        rw [if_pos hc]
        simp
  · intro hdt hmem
    rw [sharedExportEntries, List.mem_append]
    right
    have hc : (hasDef && needed.contains "default") = true := by
      rw [hdt, (contains_iff_mem needed "default").mpr hmem, Bool.and_true]
    rw [if_pos hc]
    simp
  · intro primary shared sp f hne
    rw [mergeSharedIntoPrimary]
    have : (mergeEntries primary shared needed).isEmpty = false := by
      cases h : mergeEntries primary shared needed with
      | nil => exact absurd h hne
      | cons a l => simp [List.isEmpty]
    simp only [this, Bool.false_eq_true, if_false, List.append_assoc]

/-- Witness for C2: two shared exports plus a default, with satellites
needing `helper` and the default but not `internal`. -/
theorem shared_object_keys_exact_witness :
    ("internal" ∈ (sharedExportEntries [("helper", "helper"), ("internal", "internal")]
        true [] ["helper", "default"]).map Prod.fst ↔
      "internal" ∈ ["helper", "default"])
    ∧ ("default", "__shared_default__") ∈
        sharedExportEntries [("helper", "helper"), ("internal", "internal")]
          true [] ["helper", "default"] :=
  ⟨(shared_object_keys_exact [("helper", "helper"), ("internal", "internal")] true []
      ["helper", "default"] (by decide)).1 "internal",
   (shared_object_keys_exact [("helper", "helper"), ("internal", "internal")] true []
      ["helper", "default"] (by decide)).2.1 rfl (by decide)⟩

theorem rebuildSpecs_perm (keep : List ImpSpec) : (rebuildSpecs keep).Perm keep := by
  have general : ∀ (l : List ImpSpec) (p nm : List ImpSpec),
      ((l.foldl
        (fun (acc : List ImpSpec × List ImpSpec) s =>
          match s with
          | .defaultSpec _ => (s :: acc.1, acc.2)
          | .starSpec _ => (acc.1 ++ [s], acc.2)
          | .named _ _ => (acc.1, acc.2 ++ [s]))
        (p, nm)).1 ++
       (l.foldl
        (fun (acc : List ImpSpec × List ImpSpec) s =>
          match s with
          | .defaultSpec _ => (s :: acc.1, acc.2)
          | .starSpec _ => (acc.1 ++ [s], acc.2)
          | .named _ _ => (acc.1, acc.2 ++ [s]))
        (p, nm)).2).Perm ((p ++ nm) ++ l) := by
    intro l
    induction l with
    | nil => intro p nm; simp
    | cons s l ih =>
      intro p nm
      rw [List.foldl_cons]
      cases s with
      | defaultSpec lc =>
        refine List.Perm.trans (ih _ _) ?_
        have h1 : ((ImpSpec.defaultSpec lc :: p) ++ nm) ++ l =
            ImpSpec.defaultSpec lc :: ((p ++ nm) ++ l) := rfl
        rw [h1]
        exact List.perm_middle.symm
      | starSpec lc =>
        refine List.Perm.trans (ih _ _) ?_
        have h1 : ((p ++ [ImpSpec.starSpec lc]) ++ nm) ++ l =
            (p ++ ImpSpec.starSpec lc :: nm) ++ l := by
          rw [List.append_assoc p [ImpSpec.starSpec lc] nm]
          rfl
        rw [h1]
        refine List.Perm.trans (List.Perm.append_right l List.perm_middle) ?_
        have h2 : (ImpSpec.starSpec lc :: (p ++ nm)) ++ l =
            ImpSpec.starSpec lc :: ((p ++ nm) ++ l) := rfl
        rw [h2]
        exact List.perm_middle.symm
      | named i lc =>
        refine List.Perm.trans (ih _ _) ?_
        have h1 : (p ++ (nm ++ [ImpSpec.named i lc])) ++ l =
            (p ++ nm) ++ (ImpSpec.named i lc :: l) := by
          rw [← List.append_assoc p nm [ImpSpec.named i lc],
            List.append_assoc (p ++ nm) [ImpSpec.named i lc] l]
          rfl
        rw [h1]
  rw [rebuildSpecs]
  simpa using general keep [] []

theorem dedup_fold_keep (refs : List ExternalImport) (specs : List ImpSpec)
    (acc : List ImpSpec × List (String × String)) :
    (specs.foldl (dedupStep refs) acc).1 =
      acc.1 ++ specs.filter (fun s => (findDupMatch s refs).isNone) := by
  induction specs generalizing acc with
  | nil => simp
  | cons s specs ih =>
    rw [List.foldl_cons, ih]
    cases hm : findDupMatch s refs with
    | some r => simp [dedupStep, hm]
    | none => simp [dedupStep, hm]

theorem dedup_fold_map_untouched (refs : List ExternalImport) (specs : List ImpSpec)
    (acc : List ImpSpec × List (String × String)) (k : String)
    (h : ∀ t ∈ specs, ∀ r, findDupMatch t refs = some r → localOfSpec t ≠ k) :
    lookupAssoc (specs.foldl (dedupStep refs) acc).2 k = lookupAssoc acc.2 k := by
  induction specs generalizing acc with
  | nil => simp
  | cons t specs ih =>
    rw [List.foldl_cons]
    rw [ih _ (fun t' ht' => h t' (by simp [ht']))]
    cases hm : findDupMatch t refs with
    | some r =>
      have hne : localOfSpec t ≠ k := h t (by simp) r hm
      by_cases hd : (localOfSpec t != localOfSpec r) = true
      · simp [dedupStep, hm, hd, lookupAssoc_setAssoc, hne]
      · simp [dedupStep, hm, hd]
    | none => simp [dedupStep, hm]

theorem dedup_fold_map_keeps_value (refs : List ExternalImport) (specs : List ImpSpec)
    (acc : List ImpSpec × List (String × String)) (s r : ImpSpec)
    (hm : findDupMatch s refs = some r)
    (hfresh : ∀ t ∈ specs, localOfSpec t = localOfSpec s → t = s)
    (hv : lookupAssoc acc.2 (localOfSpec s) = some (localOfSpec r)) :
    lookupAssoc (specs.foldl (dedupStep refs) acc).2 (localOfSpec s) =
      some (localOfSpec r) := by
  induction specs generalizing acc with
  | nil => simpa using hv
  | cons t specs ih =>
    rw [List.foldl_cons]
    refine ih _ (fun t' ht' => hfresh t' (by simp [ht'])) ?_
    by_cases hts : t = s
    · subst hts
      rw [dedupStep, hm]
      by_cases hd : (localOfSpec t != localOfSpec r) = true
      · simp [hd, lookupAssoc_setAssoc]
      · simpa [hd] using hv
    · have hne : localOfSpec t ≠ localOfSpec s := fun h => hts (hfresh t (by simp) h)
      cases hm' : findDupMatch t refs with
      | some r' =>
        by_cases hd : (localOfSpec t != localOfSpec r') = true
        · simpa [dedupStep, hm', hd, lookupAssoc_setAssoc, hne] using hv
        · simpa [dedupStep, hm', hd] using hv
      | none => simpa [dedupStep, hm'] using hv

theorem dedup_fold_map_sets (refs : List ExternalImport) (specs : List ImpSpec)
    (acc : List ImpSpec × List (String × String)) (s r : ImpSpec)
    (hs : s ∈ specs) (hm : findDupMatch s refs = some r)
    (hd : localOfSpec r ≠ localOfSpec s)
    (hfresh : ∀ t ∈ specs, localOfSpec t = localOfSpec s → t = s) :
    lookupAssoc (specs.foldl (dedupStep refs) acc).2 (localOfSpec s) =
      some (localOfSpec r) := by
  induction specs generalizing acc with
  | nil => exact absurd hs (by simp)
  | cons t specs ih =>
    rw [List.foldl_cons]
    by_cases hts : t = s
    · subst hts
      refine dedup_fold_map_keeps_value refs specs _ t r hm
        (fun t' ht' => hfresh t' (by simp [ht'])) ?_
      rw [dedupStep, hm]
      have hbne : (localOfSpec t != localOfSpec r) = true := by
        simpa [bne_iff_ne] using fun h => hd h.symm
      simp [hbne, lookupAssoc_setAssoc]
    · have hs' : s ∈ specs := by
        rcases List.mem_cons.mp hs with h | h
        · exact absurd h.symm hts
        · exact h
      exact ih _ hs' (fun t' ht' => hfresh t' (List.mem_cons.mpr (Or.inr ht')))

theorem mapNodup_unique_key (f : ImpSpec → String) (specs : List ImpSpec)
    (hnd : (specs.map f).Nodup) (s : ImpSpec) (hs : s ∈ specs) :
    ∀ t ∈ specs, f t = f s → t = s := by
  induction specs with
  | nil => exact absurd hs (by simp)
  | cons a l ih =>
    rw [List.map_cons, List.nodup_cons] at hnd
    obtain ⟨hna, hnd'⟩ := hnd
    intro t ht hft
    rcases List.mem_cons.mp hs with rfl | hsl
    · rcases List.mem_cons.mp ht with rfl | htl
      · rfl
      · exact absurd (List.mem_map.mpr ⟨t, htl, hft⟩) hna
    · rcases List.mem_cons.mp ht with rfl | htl
      · exact absurd (List.mem_map.mpr ⟨s, hsl, hft.symm⟩) hna
      · exact ih hnd' hsl t htl hft

/-- **C5.**  In the external-import deduplication that
`mergeSharedIntoPrimary` runs over the primary chunk (passing the shared
chunk's external imports as the reference), a primary import specifier that
matches a reference specifier of the same source and imported name is
dropped from the statement; when the local aliases differ the rename
primary-local → shared-local is recorded (so the primary's references are
later switched to the shared chunk's alias); the statement survives only if
some specifiers were not duplicated, in which case it is rebuilt carrying
exactly the non-duplicated specifiers; if every specifier was duplicated
the whole statement is removed. -/
theorem external_import_dedup (src : String) (specs : List ImpSpec)
    (refs : List ExternalImport) (s r : ImpSpec)
    (hs : s ∈ specs) (hm : findDupMatch s refs = some r)
    (hnd : (specs.map localOfSpec).Nodup) :
    (∀ specs', (processImportStmt [] src specs refs).1 = some (.importDecl src specs') →
       s ∉ specs' ∧
       specs'.Perm (specs.filter (fun t => (findDupMatch t refs).isNone)))
    ∧ ((processImportStmt [] src specs refs).1 = none →
        specs.filter (fun t => (findDupMatch t refs).isNone) = [])
    ∧ (localOfSpec r ≠ localOfSpec s →
        lookupAssoc (processImportStmt [] src specs refs).2 (localOfSpec s) =
          some (localOfSpec r)) := by
  have hkeep : (specs.foldl (dedupStep refs) ([], [])).1 =
      specs.filter (fun t => (findDupMatch t refs).isNone) := by
    rw [dedup_fold_keep]
    rfl
  have hlt : (specs.filter (fun t => (findDupMatch t refs).isNone)).length <
      specs.length :=
    List.length_filter_lt_length_iff_exists.mpr ⟨s, hs, by simp [hm]⟩
  have hsnot : s ∉ specs.filter (fun t => (findDupMatch t refs).isNone) := by
    intro hmem
    rcases List.mem_filter.mp hmem with ⟨_, hpred⟩
    rw [hm] at hpred
    simp at hpred
  refine ⟨?_, ?_, ?_⟩
  · intro specs' heq
    rw [processImportStmt] at heq
    simp only [hkeep] at heq
    by_cases hemp : (specs.filter (fun t => (findDupMatch t refs).isNone)).isEmpty = true
    · rw [if_pos hemp] at heq
      exact absurd heq (by simp)
    · rw [if_neg hemp, if_pos hlt] at heq
      have hspecs' : specs' =
          rebuildSpecs (specs.filter (fun t => (findDupMatch t refs).isNone)) := by
        have := Option.some.inj heq
        injection this with h1 h2
        exact h2.symm
      subst hspecs'
      refine ⟨?_, (rebuildSpecs_perm _)⟩
      intro hmem
      exact hsnot ((rebuildSpecs_perm _).mem_iff.mp hmem)
  · intro heq
    rw [processImportStmt] at heq
    simp only [hkeep] at heq
    by_cases hemp : (specs.filter (fun t => (findDupMatch t refs).isNone)).isEmpty = true
    · cases h : specs.filter (fun t => (findDupMatch t refs).isNone) with
      | nil => rfl
      | cons a l => rw [h] at hemp; simp [List.isEmpty] at hemp
    · rw [if_neg hemp, if_pos hlt] at heq
      exact absurd heq (by simp)
  · intro hd
    rw [processImportStmt]
    simp only []
    exact dedup_fold_map_sets refs specs ([], []) s r hs hm hd
      (mapNodup_unique_key localOfSpec specs hnd s hs)

/-- Witness for C5: the primary imports `useState` (as `useStatePrimary`)
and `useMemo` from `react`; the shared chunk imports `useState` as
`useStateShared`.  The primary's `useState` specifier is dropped, the
statement is rebuilt around `useMemo`, and the rename
`useStatePrimary → useStateShared` is recorded. -/
theorem external_import_dedup_witness :
    ((ImpSpec.named "useState" "useStatePrimary") ∉ [ImpSpec.named "useMemo" "useMemo"] ∧
      List.Perm [ImpSpec.named "useMemo" "useMemo"]
        (dedupSpecsEx.filter (fun t => (findDupMatch t dedupRefsEx).isNone)))
    ∧ lookupAssoc (processImportStmt [] "react" dedupSpecsEx dedupRefsEx).2
        "useStatePrimary" = some "useStateShared" :=
  ⟨(external_import_dedup "react" dedupSpecsEx dedupRefsEx
      (.named "useState" "useStatePrimary") (.named "useState" "useStateShared")
      (by decide) (by decide) (by decide)).1
      [ImpSpec.named "useMemo" "useMemo"] rfl,
   (external_import_dedup "react" dedupSpecsEx dedupRefsEx
      (.named "useState" "useStatePrimary") (.named "useState" "useStateShared")
      (by decide) (by decide) (by decide)).2.2 (by decide)⟩

theorem patsOfParams_append (l1 l2 : List Pat) :
    patsOfParams (l1 ++ l2) = patsOfParams l1 ++ patsOfParams l2 :=
  List.filterMap_append l1 l2 _

theorem patsOfParams_dropLast_nil (ps : List Pat) (h : patsOfParams ps = []) :
    patsOfParams ps.dropLast = [] := by
  have hsub := List.Sublist.filterMap
    (fun p => match p with | .pobj es => some es | .pid _ => none)
    (List.dropLast_sublist ps)
  rw [patsOfParams] at h ⊢
  rw [h] at hsub
  exact List.sublist_nil.mp hsub

mutual
theorem patsRepE (es : List (String × String)) :
    ∀ e : Expr, patsE e = [] →
      patsE (repParamE (Pat.pobj es) e).1 =
        (if (repParamE (Pat.pobj es) e).2 then [es] else [])
  | .ident n, h => by simp [repParamE, patsE]
  | .strLit v, h => by simp [repParamE, patsE]
  | .member o p c, h => by
    rw [patsE] at h
    have ih := patsRepE es o h
    simp only [repParamE, patsE]
    exact ih
  | .call f args, h => by
    rw [patsE, List.append_eq_nil] at h
    have ihf := patsRepE es f h.1
    have iha := patsRepEs es args h.2
    simp only [repParamE]
    by_cases hf : (repParamE (Pat.pobj es) f).2 = true
    · simp only [hf, if_true, patsE, h.2]
      rw [hf] at ihf
      simp only [if_true] at ihf
      simp [ihf]
    · have hf' : (repParamE (Pat.pobj es) f).2 = false := by simpa using hf
      simp only [hf', Bool.false_eq_true, if_false, patsE, h.1]
      rw [hf'] at ihf
      simp only [Bool.false_eq_true, if_false] at ihf
      simpa using iha
  | .funcExpr ps b, h => by
    rw [patsE, List.append_eq_nil] at h
    cases hlp : lastIsPid ps with
    | some n =>
      simp only [repParamE, hlp, patsE, if_true]
      rw [patsOfParams_append, patsOfParams_dropLast_nil ps h.1, h.2]
      rfl
    | none =>
      have ihb := patsRepSs es b h.2
      simp only [repParamE, hlp, patsE, h.1]
      simpa using ihb
  | .objLit entries, h => by simp [repParamE, patsE]

theorem patsRepEs (es : List (String × String)) :
    ∀ l : List Expr, patsEs l = [] →
      patsEs (repParamEs (Pat.pobj es) l).1 =
        (if (repParamEs (Pat.pobj es) l).2 then [es] else [])
  | [], h => by simp [repParamEs, patsEs]
  | e :: l, h => by
    rw [patsEs, List.append_eq_nil] at h
    have ihe := patsRepE es e h.1
    have ihl := patsRepEs es l h.2
    simp only [repParamEs]
    by_cases he : (repParamE (Pat.pobj es) e).2 = true
    · simp only [he, if_true, patsEs, h.2]
      rw [he] at ihe
      simp only [if_true] at ihe
      simp [ihe]
    · have he' : (repParamE (Pat.pobj es) e).2 = false := by simpa using he
      simp only [he', Bool.false_eq_true, if_false, patsEs, h.1]
      simpa using ihl

theorem patsRepS (es : List (String × String)) :
    ∀ s : Stmt, patsS s = [] →
      patsS (repParamS (Pat.pobj es) s).1 =
        (if (repParamS (Pat.pobj es) s).2 then [es] else [])
  | .importDecl src specs, h => by simp [repParamS, patsS]
  | .varDecl ds, h => by
    rw [patsS] at h
    have ih := patsRepDs es ds h
    simp only [repParamS, patsS]
    exact ih
  | .funDecl n ps b, h => by
    rw [patsS, List.append_eq_nil] at h
    have ihb := patsRepSs es b h.2
    simp only [repParamS, patsS, h.1]
    simpa using ihb
  | .classDecl n, h => by simp [repParamS, patsS]
  | .exportDeclStmt inner, h => by
    rw [patsS] at h
    have ih := patsRepS es inner h
    simp only [repParamS, patsS]
    exact ih
  | .exportSpecs sp so, h => by simp [repParamS, patsS]
  | .exportDefault e, h => by
    rw [patsS] at h
    have ih := patsRepE es e h
    simp only [repParamS, patsS]
    exact ih
  | .exprStmt e, h => by
    rw [patsS] at h
    have ih := patsRepE es e h
    simp only [repParamS, patsS]
    exact ih

theorem patsRepDs (es : List (String × String)) :
    ∀ ds : List (String × Option Expr), patsDs ds = [] →
      patsDs (repParamDs (Pat.pobj es) ds).1 =
        (if (repParamDs (Pat.pobj es) ds).2 then [es] else [])
  | [], h => by simp [repParamDs, patsDs]
  | (n, some e) :: ds, h => by
    rw [patsDs, List.append_eq_nil] at h
    have ihe := patsRepE es e h.1
    have ihd := patsRepDs es ds h.2
    simp only [repParamDs]
    by_cases he : (repParamE (Pat.pobj es) e).2 = true
    · simp only [he, if_true, patsDs, h.2]
      rw [he] at ihe
      simp only [if_true] at ihe
      simp [ihe]
    · have he' : (repParamE (Pat.pobj es) e).2 = false := by simpa using he
      simp only [he', Bool.false_eq_true, if_false, patsDs, h.1]
      simpa using ihd
  | (n, none) :: ds, h => by
    rw [patsDs] at h
    have ihd := patsRepDs es ds h
    simp only [repParamDs, patsDs]
    exact ihd

theorem patsRepSs (es : List (String × String)) :
    ∀ l : List Stmt, patsSs l = [] →
      patsSs (repParamSs (Pat.pobj es) l).1 =
        (if (repParamSs (Pat.pobj es) l).2 then [es] else [])
  | [], h => by simp [repParamSs, patsSs]
  | s :: l, h => by
    rw [patsSs, List.append_eq_nil] at h
    have ihs := patsRepS es s h.1
    have ihl := patsRepSs es l h.2
    simp only [repParamSs]
    by_cases hs : (repParamS (Pat.pobj es) s).2 = true
    · simp only [hs, if_true, patsSs, h.2]
      rw [hs] at ihs
      simp only [if_true] at ihs
      simp [ihs]
    · have hs' : (repParamS (Pat.pobj es) s).2 = false := by simpa using hs
      simp only [hs', Bool.false_eq_true, if_false, patsSs, h.1]
      simpa using ihl
end

mutual
theorem repFoundE (pat : Pat) :
    ∀ e : Expr, (repParamE pat e).2 = (findSharedE e).isSome
  | .ident n => by simp [repParamE, findSharedE]
  | .strLit v => by simp [repParamE, findSharedE]
  | .member o p c => by
    simp only [repParamE, findSharedE]
    exact repFoundE pat o
  | .call f args => by
    simp only [repParamE, findSharedE]
    have ihf := repFoundE pat f
    have iha := repFoundEs pat args
    cases hf : findSharedE f with
    | some n =>
      have : (repParamE pat f).2 = true := by rw [ihf, hf]; rfl
      simp [this]
    | none =>
      have : (repParamE pat f).2 = false := by rw [ihf, hf]; rfl
      simp [this, iha]
  | .funcExpr ps b => by
    simp only [repParamE, findSharedE]
    cases hlp : lastIsPid ps with
    | some n => simp
    | none =>
      have ihb := repFoundSs pat b
      simpa using ihb
  | .objLit entries => by simp [repParamE, findSharedE]

theorem repFoundEs (pat : Pat) :
    ∀ l : List Expr, (repParamEs pat l).2 = (findSharedEs l).isSome
  | [] => by simp [repParamEs, findSharedEs]
  | e :: l => by
    simp only [repParamEs, findSharedEs]
    have ihe := repFoundE pat e
    have ihl := repFoundEs pat l
    cases he : findSharedE e with
    | some n =>
      have : (repParamE pat e).2 = true := by rw [ihe, he]; rfl
      simp [this]
    | none =>
      have : (repParamE pat e).2 = false := by rw [ihe, he]; rfl
      simp [this, ihl]

theorem repFoundS (pat : Pat) :
    ∀ s : Stmt, (repParamS pat s).2 = (findSharedS s).isSome
  | .importDecl src specs => by simp [repParamS, findSharedS]
  | .varDecl ds => by
    simp only [repParamS, findSharedS]
    exact repFoundDs pat ds
  | .funDecl n ps b => by
    simp only [repParamS, findSharedS]
    exact repFoundSs pat b
  | .classDecl n => by simp [repParamS, findSharedS]
  | .exportDeclStmt inner => by
    simp only [repParamS, findSharedS]
    exact repFoundS pat inner
  | .exportSpecs sp so => by simp [repParamS, findSharedS]
  | .exportDefault e => by
    simp only [repParamS, findSharedS]
    exact repFoundE pat e
  | .exprStmt e => by
    simp only [repParamS, findSharedS]
    exact repFoundE pat e

theorem repFoundDs (pat : Pat) :
    ∀ ds : List (String × Option Expr),
      (repParamDs pat ds).2 = (findSharedDs ds).isSome
  | [] => by simp [repParamDs, findSharedDs]
  | (n, some e) :: ds => by
    simp only [repParamDs, findSharedDs]
    have ihe := repFoundE pat e
    have ihd := repFoundDs pat ds
    cases he : findSharedE e with
    | some nm =>
      have : (repParamE pat e).2 = true := by rw [ihe, he]; rfl
      simp [this]
    | none =>
      have : (repParamE pat e).2 = false := by rw [ihe, he]; rfl
      simp [this, ihd]
  | (n, none) :: ds => by
    simp only [repParamDs, findSharedDs]
    exact repFoundDs pat ds

theorem repFoundSs (pat : Pat) :
    ∀ l : List Stmt, (repParamSs pat l).2 = (findSharedSs l).isSome
  | [] => by simp [repParamSs, findSharedSs]
  | s :: l => by
    simp only [repParamSs, findSharedSs]
    have ihs := repFoundS pat s
    have ihl := repFoundSs pat l
    cases hs : findSharedS s with
    | some n =>
      have : (repParamS pat s).2 = true := by rw [ihs, hs]; rfl
      simp [this]
    | none =>
      have : (repParamS pat s).2 = false := by rw [ihs, hs]; rfl
      simp [this, ihl]
end

theorem accessHead_repParam (pat : Pat) (p q : String) (c : Bool) :
    ∀ o : Expr, accessHead p (repParamE pat o).1 q c = accessHead p o q c
  | .ident n => rfl
  | .strLit v => rfl
  | .member o2 q2 c2 => rfl
  | .call f args => by
    simp only [repParamE]
    by_cases hf : (repParamE pat f).2 = true
    · simp [hf, accessHead]
    · have hf' : (repParamE pat f).2 = false := by simpa using hf
      simp [hf', accessHead]
  | .funcExpr ps b => by
    simp only [repParamE]
    cases hlp : lastIsPid ps with
    | some n => simp [accessHead]
    | none => simp [accessHead]
  | .objLit entries => rfl

mutual
theorem collectRepE (pat : Pat) (p : String) :
    ∀ e : Expr, collectE p (repParamE pat e).1 = collectE p e
  | .ident n => by simp [repParamE]
  | .strLit v => by simp [repParamE]
  | .member o q c => by
    have ih := collectRepE pat p o
    have hh := accessHead_repParam pat p q c o
    simp only [repParamE, collectE]
    rw [hh, ih]
  | .call f args => by
    have ihf := collectRepE pat p f
    have iha := collectRepEs pat p args
    simp only [repParamE]
    by_cases hf : (repParamE pat f).2 = true
    · simp only [hf, if_true, collectE]
      rw [ihf]
    · have hf' : (repParamE pat f).2 = false := by simpa using hf
      simp only [hf', Bool.false_eq_true, if_false, collectE]
      rw [iha]
  | .funcExpr ps b => by
    have ihb := collectRepSs pat p b
    simp only [repParamE]
    cases hlp : lastIsPid ps with
    | some n => simp [collectE]
    | none => simp only [collectE]; exact ihb
  | .objLit entries => by simp [repParamE]

theorem collectRepEs (pat : Pat) (p : String) :
    ∀ l : List Expr, collectEs p (repParamEs pat l).1 = collectEs p l
  | [] => by simp [repParamEs]
  | e :: l => by
    have ihe := collectRepE pat p e
    have ihl := collectRepEs pat p l
    simp only [repParamEs]
    by_cases he : (repParamE pat e).2 = true
    · simp only [he, if_true, collectEs]
      rw [ihe]
    · have he' : (repParamE pat e).2 = false := by simpa using he
      simp only [he', Bool.false_eq_true, if_false, collectEs]
      rw [ihl]

theorem collectRepS (pat : Pat) (p : String) :
    ∀ s : Stmt, collectS p (repParamS pat s).1 = collectS p s
  | .importDecl src specs => by simp [repParamS]
  | .varDecl ds => by
    have ih := collectRepDs pat p ds
    simp only [repParamS, collectS]
    exact ih
  | .funDecl n ps b => by
    have ihb := collectRepSs pat p b
    simp only [repParamS, collectS]
    exact ihb
  | .classDecl n => by simp [repParamS]
  | .exportDeclStmt inner => by
    have ih := collectRepS pat p inner
    simp only [repParamS, collectS]
    exact ih
  | .exportSpecs sp so => by simp [repParamS]
  | .exportDefault e => by
    have ih := collectRepE pat p e
    simp only [repParamS, collectS]
    exact ih
  | .exprStmt e => by
    have ih := collectRepE pat p e
    simp only [repParamS, collectS]
    exact ih

theorem collectRepDs (pat : Pat) (p : String) :
    ∀ ds : List (String × Option Expr),
      collectDs p (repParamDs pat ds).1 = collectDs p ds
  | [] => by simp [repParamDs]
  | (n, some e) :: ds => by
    have ihe := collectRepE pat p e
    have ihd := collectRepDs pat p ds
    simp only [repParamDs]
    by_cases he : (repParamE pat e).2 = true
    · simp only [he, if_true, collectDs]
      rw [ihe]
    · have he' : (repParamE pat e).2 = false := by simpa using he
      simp only [he', Bool.false_eq_true, if_false, collectDs]
      rw [ihd]
  | (n, none) :: ds => by
    have ihd := collectRepDs pat p ds
    simp only [repParamDs, collectDs]
    exact ihd

theorem collectRepSs (pat : Pat) (p : String) :
    ∀ l : List Stmt, collectSs p (repParamSs pat l).1 = collectSs p l
  | [] => by simp [repParamSs]
  | s :: l => by
    have ihs := collectRepS pat p s
    have ihl := collectRepSs pat p l
    simp only [repParamSs]
    by_cases hs : (repParamS pat s).2 = true
    · simp only [hs, if_true, collectSs]
      rw [ihs]
    · have hs' : (repParamS pat s).2 = false := by simpa using hs
      simp only [hs', Bool.false_eq_true, if_false, collectSs]
      rw [ihl]
end

theorem accessHead_rw (f : String → String) (p q : String) (c : Bool) :
    ∀ o : Expr, (∀ n, o = Expr.ident n → False) →
      (∀ q' ∈ collectE p o, f q' ≠ p) →
      accessHead p (rwE f p o) q c = []
  | .ident n, hne, _ => absurd rfl (hne n)
  | .strLit v, _, _ => rfl
  | .member o2 q2 c2, _, hq => by
    cases o2 with
    | ident n2 =>
      by_cases hm : (n2 == p && !c2) = true
      · simp only [rwE, hm, if_true]
        have hq2 : q2 ∈ collectE p (.member (.ident n2) q2 c2) := by
          simp [collectE, accessHead, hm]
        have hfp : f q2 ≠ p := hq q2 hq2
        simp [accessHead, hfp]
      · simp only [rwE, hm, Bool.false_eq_true, if_false]
        rfl
    | strLit v => rfl
    | member o3 q3 c3 => rfl
    | call g args => rfl
    | funcExpr ps b => rfl
    | objLit es => rfl
  | .call g args, _, _ => rfl
  | .funcExpr ps b, _, _ => rfl
  | .objLit es, _, _ => rfl

mutual
theorem collectRwE (f : String → String) (p : String) :
    ∀ e : Expr, (∀ q ∈ collectE p e, f q ≠ p) → collectE p (rwE f p e) = []
  | .ident n, _ => rfl
  | .strLit v, _ => rfl
  | .member o q c, h => by
    cases o with
    | ident n =>
      by_cases hm : (n == p && !c) = true
      · simp [rwE, hm, collectE]
      · simp only [rwE, hm, Bool.false_eq_true, if_false]
        simp [collectE, accessHead, hm]
    | strLit v => simp [rwE, collectE, accessHead]
    | member o2 q2 c2 =>
      have hsub : ∀ q' ∈ collectE p (Expr.member o2 q2 c2), f q' ≠ p := by
        intro q' hq'
        exact h q' (by simp [collectE, List.mem_append]; right; simpa [collectE] using hq')
      have hh := accessHead_rw f p q c (Expr.member o2 q2 c2) (by intro n hn; cases hn) hsub
      have ih := collectRwE f p (Expr.member o2 q2 c2) hsub
      simp only [rwE, collectE] at *
      rw [hh, ih]
      rfl
    | call g args =>
      have hsub : ∀ q' ∈ collectE p (Expr.call g args), f q' ≠ p := by
        intro q' hq'
        exact h q' (by simp [collectE, List.mem_append]; right; simpa [collectE] using hq')
      have hh := accessHead_rw f p q c (Expr.call g args) (by intro n hn; cases hn) hsub
      have ih := collectRwE f p (Expr.call g args) hsub
      simp only [rwE, collectE] at *
      rw [hh, ih]
      rfl
    | funcExpr ps b =>
      have hsub : ∀ q' ∈ collectE p (Expr.funcExpr ps b), f q' ≠ p := by
        intro q' hq'
        exact h q' (by simp [collectE, List.mem_append]; right; simpa [collectE] using hq')
      have hh := accessHead_rw f p q c (Expr.funcExpr ps b) (by intro n hn; cases hn) hsub
      have ih := collectRwE f p (Expr.funcExpr ps b) hsub
      simp only [rwE, collectE] at *
      rw [hh, ih]
      rfl
    | objLit es => simp [rwE, collectE, accessHead]
  | .call g args, h => by
    have hg := collectRwE f p g (fun q hq => h q (by simp [collectE, List.mem_append, hq]))
    have ha := collectRwEs f p args (fun q hq => h q (by simp [collectE, List.mem_append, hq]))
    simp [rwE, collectE, hg, ha]
  | .funcExpr ps b, h => by
    have hb := collectRwSs f p b (fun q hq => h q (by simpa [collectE] using hq))
    simp [rwE, collectE, hb]
  | .objLit es, _ => rfl

theorem collectRwEs (f : String → String) (p : String) :
    ∀ l : List Expr, (∀ q ∈ collectEs p l, f q ≠ p) → collectEs p (rwEs f p l) = []
  | [], _ => rfl
  | e :: l, h => by
    have he := collectRwE f p e (fun q hq => h q (by simp [collectEs, List.mem_append, hq]))
    have hl := collectRwEs f p l (fun q hq => h q (by simp [collectEs, List.mem_append, hq]))
    simp [rwEs, collectEs, he, hl]

theorem collectRwS (f : String → String) (p : String) :
    ∀ s : Stmt, (∀ q ∈ collectS p s, f q ≠ p) → collectS p (rwS f p s) = []
  | .importDecl src specs, _ => rfl
  | .varDecl ds, h => by
    have hd := collectRwDs f p ds (fun q hq => h q (by simpa [collectS] using hq))
    simp [rwS, collectS, hd]
  | .funDecl n ps b, h => by
    have hb := collectRwSs f p b (fun q hq => h q (by simpa [collectS] using hq))
    simp [rwS, collectS, hb]
  | .classDecl n, _ => rfl
  | .exportDeclStmt inner, h => by
    have hi := collectRwS f p inner (fun q hq => h q (by simpa [collectS] using hq))
    simp [rwS, collectS, hi]
  | .exportSpecs sp so, _ => rfl
  | .exportDefault e, h => by
    have he := collectRwE f p e (fun q hq => h q (by simpa [collectS] using hq))
    simp [rwS, collectS, he]
  | .exprStmt e, h => by
    have he := collectRwE f p e (fun q hq => h q (by simpa [collectS] using hq))
    simp [rwS, collectS, he]

theorem collectRwDs (f : String → String) (p : String) :
    ∀ ds : List (String × Option Expr),
      (∀ q ∈ collectDs p ds, f q ≠ p) → collectDs p (rwDs f p ds) = []
  | [], _ => rfl
  | (n, some e) :: ds, h => by
    have he := collectRwE f p e (fun q hq => h q (by simp [collectDs, List.mem_append, hq]))
    have hd := collectRwDs f p ds (fun q hq => h q (by simp [collectDs, List.mem_append, hq]))
    simp [rwDs, collectDs, he, hd]
  | (n, none) :: ds, h => by
    have hd := collectRwDs f p ds (fun q hq => h q (by simpa [collectDs] using hq))
    simp [rwDs, collectDs, hd]

theorem collectRwSs (f : String → String) (p : String) :
    ∀ l : List Stmt, (∀ q ∈ collectSs p l, f q ≠ p) → collectSs p (rwSs f p l) = []
  | [], _ => rfl
  | s :: l, h => by
    have hs := collectRwS f p s (fun q hq => h q (by simp [collectSs, List.mem_append, hq]))
    have hl := collectRwSs f p l (fun q hq => h q (by simp [collectSs, List.mem_append, hq]))
    simp [rwSs, collectSs, hs, hl]
end

mutual
theorem patsRwE (f : String → String) (p : String) :
    ∀ e : Expr, patsE (rwE f p e) = patsE e
  | .ident n => rfl
  | .strLit v => rfl
  | .member o q c => by
    cases o with
    | ident n =>
      by_cases hm : (n == p && !c) = true
      · simp [rwE, hm, patsE]
      · simp only [rwE, hm, Bool.false_eq_true, if_false]
    | strLit v => rfl
    | member o2 q2 c2 =>
      have ih := patsRwE f p (Expr.member o2 q2 c2)
      simp only [rwE, patsE] at *
      exact ih
    | call g args =>
      have ih := patsRwE f p (Expr.call g args)
      simp only [rwE, patsE] at *
      exact ih
    | funcExpr ps b =>
      have ih := patsRwE f p (Expr.funcExpr ps b)
      simp only [rwE, patsE] at *
      exact ih
    | objLit es => rfl
  | .call g args => by
    have hg := patsRwE f p g
    have ha := patsRwEs f p args
    simp [rwE, patsE, hg, ha]
  | .funcExpr ps b => by
    have hb := patsRwSs f p b
    simp [rwE, patsE, hb]
  | .objLit es => rfl

theorem patsRwEs (f : String → String) (p : String) :
    ∀ l : List Expr, patsEs (rwEs f p l) = patsEs l
  | [] => rfl
  | e :: l => by
    have he := patsRwE f p e
    have hl := patsRwEs f p l
    simp [rwEs, patsEs, he, hl]

theorem patsRwS (f : String → String) (p : String) :
    ∀ s : Stmt, patsS (rwS f p s) = patsS s
  | .importDecl src specs => rfl
  | .varDecl ds => by
    have hd := patsRwDs f p ds
    simp [rwS, patsS, hd]
  | .funDecl n ps b => by
    have hb := patsRwSs f p b
    simp [rwS, patsS, hb]
  | .classDecl n => rfl
  | .exportDeclStmt inner => by
    have hi := patsRwS f p inner
    simp [rwS, patsS, hi]
  | .exportSpecs sp so => rfl
  | .exportDefault e => by
    have he := patsRwE f p e
    simp [rwS, patsS, he]
  | .exprStmt e => by
    have he := patsRwE f p e
    simp [rwS, patsS, he]

theorem patsRwDs (f : String → String) (p : String) :
    ∀ ds : List (String × Option Expr), patsDs (rwDs f p ds) = patsDs ds
  | [] => rfl
  | (n, some e) :: ds => by
    have he := patsRwE f p e
    have hd := patsRwDs f p ds
    simp [rwDs, patsDs, he, hd]
  | (n, none) :: ds => by
    have hd := patsRwDs f p ds
    simp [rwDs, patsDs, hd]

theorem patsRwSs (f : String → String) (p : String) :
    ∀ l : List Stmt, patsSs (rwSs f p l) = patsSs l
  | [] => rfl
  | s :: l => by
    have hs := patsRwS f p s
    have hl := patsRwSs f p l
    simp [rwSs, patsSs, hs, hl]
end

mutual
theorem patsRemUSE : ∀ e : Expr, patsE (remUSE e) = patsE e
  | .ident n => rfl
  | .strLit v => rfl
  | .member o q c => by
    have ih := patsRemUSE o
    simp only [remUSE, patsE]
    exact ih
  | .call g args => by
    have hg := patsRemUSE g
    have ha := patsRemUSEs args
    simp [remUSE, patsE, hg, ha]
  | .funcExpr ps b => by
    have hb := patsRemUSSs b
    simp [remUSE, patsE, hb]
  | .objLit es => rfl

theorem patsRemUSEs : ∀ l : List Expr, patsEs (remUSEs l) = patsEs l
  | [] => rfl
  | e :: l => by
    have he := patsRemUSE e
    have hl := patsRemUSEs l
    simp [remUSEs, patsEs, he, hl]

theorem patsRemUSS : ∀ s : Stmt, patsS (remUSS s) = patsS s
  | .importDecl src specs => rfl
  | .varDecl ds => by
    have hd := patsRemUSDs ds
    simp [remUSS, patsS, hd]
  | .funDecl n ps b => by
    have hb := patsRemUSSs b
    simp [remUSS, patsS, hb]
  | .classDecl n => rfl
  | .exportDeclStmt inner => by
    have hi := patsRemUSS inner
    simp [remUSS, patsS, hi]
  | .exportSpecs sp so => rfl
  | .exportDefault e => by
    have he := patsRemUSE e
    simp [remUSS, patsS, he]
  | .exprStmt e => by
    have he := patsRemUSE e
    simp [remUSS, patsS, he]

theorem patsRemUSDs : ∀ ds : List (String × Option Expr), patsDs (remUSDs ds) = patsDs ds
  | [] => rfl
  | (n, some e) :: ds => by
    have he := patsRemUSE e
    have hd := patsRemUSDs ds
    simp [remUSDs, patsDs, he, hd]
  | (n, none) :: ds => by
    have hd := patsRemUSDs ds
    simp [remUSDs, patsDs, hd]

theorem patsRemUSSs : ∀ l : List Stmt, patsSs (remUSSs l) = patsSs l
  | [] => rfl
  | s :: l => by
    have hs := patsRemUSS s
    have hl := patsRemUSSs l
    by_cases hus : isUseStrict s = true
    · have hps : patsS s = [] := by
        cases s with
        | exprStmt e =>
          cases e with
          | strLit v => rfl
          | ident n => rfl
          | member o q c => exact absurd hus (by simp [isUseStrict])
          | call g args => exact absurd hus (by simp [isUseStrict])
          | funcExpr ps b => exact absurd hus (by simp [isUseStrict])
          | objLit es => exact absurd hus (by simp [isUseStrict])
        | importDecl src specs => exact absurd hus (by simp [isUseStrict])
        | varDecl ds => exact absurd hus (by simp [isUseStrict])
        | funDecl n ps b => exact absurd hus (by simp [isUseStrict])
        | classDecl n => exact absurd hus (by simp [isUseStrict])
        | exportDeclStmt inner => exact absurd hus (by simp [isUseStrict])
        | exportSpecs sp so => exact absurd hus (by simp [isUseStrict])
        | exportDefault e => exact absurd hus (by simp [isUseStrict])
      simp [remUSSs, hus, patsSs, hps, patsRemUSSs l]
    · have hus' : isUseStrict s = false := by simpa using hus
      simp [remUSSs, hus', patsSs, hs, hl]
end

mutual
theorem collectRemUSE (p : String) : ∀ e : Expr, (collectE p (remUSE e)).Sublist (collectE p e)
  | .ident n => List.Sublist.refl _
  | .strLit v => List.Sublist.refl _
  | .member o q c => by
    have ih := collectRemUSE p o
    have hh : accessHead p (remUSE o) q c = accessHead p o q c := by
      cases o with
      | ident n => rfl
      | strLit v => rfl
      | member o2 q2 c2 => rfl
      | call g args => rfl
      | funcExpr ps b => rfl
      | objLit es => rfl
    simp only [remUSE, collectE, hh]
    exact List.Sublist.append (List.Sublist.refl _) ih
  | .call g args => by
    have hg := collectRemUSE p g
    have ha := collectRemUSEs p args
    simp only [remUSE, collectE]
    exact List.Sublist.append hg ha
  | .funcExpr ps b => by
    have hb := collectRemUSSs p b
    simp only [remUSE, collectE]
    exact hb
  | .objLit es => List.Sublist.refl _

theorem collectRemUSEs (p : String) :
    ∀ l : List Expr, (collectEs p (remUSEs l)).Sublist (collectEs p l)
  | [] => List.Sublist.refl _
  | e :: l => by
    simp only [remUSEs, collectEs]
    exact List.Sublist.append (collectRemUSE p e) (collectRemUSEs p l)

theorem collectRemUSS (p : String) : ∀ s : Stmt, (collectS p (remUSS s)).Sublist (collectS p s)
  | .importDecl src specs => List.Sublist.refl _
  | .varDecl ds => by
    simp only [remUSS, collectS]
    exact collectRemUSDs p ds
  | .funDecl n ps b => by
    simp only [remUSS, collectS]
    exact collectRemUSSs p b
  | .classDecl n => List.Sublist.refl _
  | .exportDeclStmt inner => by
    simp only [remUSS, collectS]
    exact collectRemUSS p inner
  | .exportSpecs sp so => List.Sublist.refl _
  | .exportDefault e => by
    simp only [remUSS, collectS]
    exact collectRemUSE p e
  | .exprStmt e => by
    simp only [remUSS, collectS]
    exact collectRemUSE p e

theorem collectRemUSDs (p : String) :
    ∀ ds : List (String × Option Expr), (collectDs p (remUSDs ds)).Sublist (collectDs p ds)
  | [] => List.Sublist.refl _
  | (n, some e) :: ds => by
    simp only [remUSDs, collectDs]
    exact List.Sublist.append (collectRemUSE p e) (collectRemUSDs p ds)
  | (n, none) :: ds => by
    simp only [remUSDs, collectDs]
    exact collectRemUSDs p ds

theorem collectRemUSSs (p : String) :
    ∀ l : List Stmt, (collectSs p (remUSSs l)).Sublist (collectSs p l)
  | [] => List.Sublist.refl _
  | s :: l => by
    by_cases hus : isUseStrict s = true
    · simp only [remUSSs, hus, if_true, collectSs]
      exact (collectRemUSSs p l).trans (List.sublist_append_right _ _)
    · have hus' : isUseStrict s = false := by simpa using hus
      simp only [remUSSs, hus', Bool.false_eq_true, if_false, collectSs]
      exact List.Sublist.append (collectRemUSS p s) (collectRemUSSs p l)
end

theorem mem_dedupStr (l : List String) (q : String) : q ∈ dedupStr l ↔ q ∈ l := by
  rw [dedupStr, mem_fold_addUnique]
  simp

theorem fold_addUnique_nodup (l acc : List String) (hacc : acc.Nodup) :
    (l.foldl addUnique acc).Nodup := by
  induction l generalizing acc with
  | nil => exact hacc
  | cons a l ih =>
    rw [List.foldl_cons]
    refine ih _ ?_
    rw [addUnique]
    by_cases hc : acc.contains a = true
    · rwa [if_pos hc]
    · rw [if_neg hc]
      rw [List.nodup_append]
      refine ⟨hacc, List.nodup_singleton a, ?_⟩
      intro x hx hxa
      rcases List.mem_singleton.mp hxa with rfl
      exact hc ((contains_iff_mem acc x).mpr hx)

theorem dedupStr_nodup (l : List String) : (dedupStr l).Nodup :=
  fold_addUnique_nodup l [] List.nodup_nil

theorem lookupAssoc_selfmap_aux (entries : List (String × String))
    (m0 : List (String × String))
    (hm0 : ∀ j v, lookupAssoc m0 j = some v → v = j)
    (hent : ∀ e ∈ entries, e.2 = e.1) :
    ∀ j v, lookupAssoc (entries.foldl (fun m e => setAssoc m e.1 e.2) m0) j = some v →
      v = j := by
  induction entries generalizing m0 with
  | nil => exact hm0
  | cons e entries ih =>
    rw [List.foldl_cons]
    refine ih _ ?_ (fun e' he' => hent e' (by simp [he']))
    intro j v hl
    rw [lookupAssoc_setAssoc] at hl
    by_cases hej : e.1 = j
    · rw [if_pos hej] at hl
      have := Option.some.inj hl
      rw [← this, hent e (by simp), hej]
    · rw [if_neg hej] at hl
      exact hm0 j v hl

theorem lookupD_selfmap (l : List String) (k : String) :
    lookupD ((l.map (fun q => (q, q))).foldl (fun m e => setAssoc m e.1 e.2) []) k k = k := by
  have haux := lookupAssoc_selfmap_aux (l.map (fun q => (q, q))) []
    (fun j v h => by cases h) (by intro e he; rcases List.mem_map.mp he with ⟨q, _, rfl⟩; rfl)
  rw [lookupD]
  cases hl : lookupAssoc ((l.map (fun q => (q, q))).foldl (fun m e => setAssoc m e.1 e.2) []) k with
  | none => rfl
  | some v => simpa using haux k v hl

/-- **C6 counterexample.**  A wrapper whose shared parameter has zero
property accesses but whose recorded import mappings are nonempty: recovery
is *not* a no-op — the parameter is still replaced by a destructuring
pattern built from the recorded mappings (and the `'use strict'` directive
is dropped), refuting the claim's zero-uses clause and its "exactly N
entries" clause (here N = 0 but the pattern has one entry). -/
theorem destructure_not_noop_on_zero_accesses :
    collectProps "dep" wrapperNoAccessEx = [] ∧
    destructureSharedParameter wrapperNoAccessEx [("a", "a")] ≠ wrapperNoAccessEx := by
  constructor
  · rfl
  · intro h
    have h2 := congrArg collectPatterns h
    rw [show collectPatterns (destructureSharedParameter wrapperNoAccessEx [("a", "a")]) =
        [[("a", "a")]] from rfl,
      show collectPatterns wrapperNoAccessEx = [] from rfl] at h2
    exact absurd h2 (by decide)

/-- **C6 amended.**  Let `p` be the wrapper's shared (last) parameter and
let N be the number of distinct non-computed properties accessed on it
(the length of `dedupStr (collectProps p prog)`, which the last two
conjuncts show is duplicate-free and carries exactly the accessed
properties).  When no import mappings were recorded, recovery replaces the
parameter with a destructuring pattern of exactly N entries mapping each
accessed property to itself and rewrites all access sites to plain
identifiers; with zero accesses and no recorded mappings the code is
unchanged.  When mappings were recorded, the installed pattern has exactly
one entry per recorded mapping — not one per accessed property, and the
replacement happens even with zero accesses — and all access sites are
rewritten through the recorded mapping. -/
theorem destructure_recovery (prog : List Stmt) (p : String)
    (hfind : findSharedParam prog = some p)
    (hnopat : collectPatterns prog = []) :
    (collectProps p prog = [] → destructureSharedParameter prog [] = prog)
    ∧ (∀ maps : List (String × String), maps ≠ [] →
        collectPatterns (destructureSharedParameter prog maps) = [maps]
        ∧ ((∀ q ∈ collectProps p prog,
              lookupD (maps.foldl (fun m e => setAssoc m e.1 e.2) []) q q ≠ p) →
            collectProps p (destructureSharedParameter prog maps) = []))
    ∧ (dedupStr (collectProps p prog) ≠ [] →
        collectPatterns (destructureSharedParameter prog []) =
          [(dedupStr (collectProps p prog)).map (fun q => (q, q))]
        ∧ (p ∉ collectProps p prog →
            collectProps p (destructureSharedParameter prog []) = []))
    ∧ (dedupStr (collectProps p prog)).Nodup
    ∧ (∀ q, q ∈ dedupStr (collectProps p prog) ↔ q ∈ collectProps p prog) := by
  have hfound : ∀ pat : Pat, (repParamSs pat prog).2 = true := by
    intro pat
    rw [repFoundSs pat prog]
    rw [show findSharedSs prog = findSharedParam prog from rfl, hfind]
    rfl
  have hpats : ∀ es : List (String × String),
      patsSs (repParamSs (Pat.pobj es) prog).1 = [es] := by
    intro es
    have h := patsRepSs es prog hnopat
    rw [hfound (Pat.pobj es)] at h
    simpa using h
  have hchainPats : ∀ (es : List (String × String)) (f : String → String),
      collectPatterns
        (removeUseStrict (rewriteAccesses f p (replaceParamFirst (Pat.pobj es) prog))) =
        [es] := by
    intro es f
    show patsSs (remUSSs (rwSs f p (repParamSs (Pat.pobj es) prog).1)) = [es]
    rw [patsRemUSSs, patsRwSs, hpats]
  have hchainColl : ∀ (es : List (String × String)) (f : String → String),
      (∀ q ∈ collectProps p prog, f q ≠ p) →
      collectProps p
        (removeUseStrict (rewriteAccesses f p (replaceParamFirst (Pat.pobj es) prog))) =
        [] := by
    intro es f hf
    show collectSs p (remUSSs (rwSs f p (repParamSs (Pat.pobj es) prog).1)) = []
    have hrw : collectSs p (rwSs f p (repParamSs (Pat.pobj es) prog).1) = [] := by
      refine collectRwSs f p _ ?_
      rw [collectRepSs (Pat.pobj es) p prog]
      exact hf
    have hsub := collectRemUSSs p (rwSs f p (repParamSs (Pat.pobj es) prog).1)
    rw [hrw] at hsub
    exact List.sublist_nil.mp hsub
  refine ⟨?_, ?_, ?_, dedupStr_nodup _, fun q => mem_dedupStr _ q⟩
  · intro hprops
    simp [destructureSharedParameter, hfind, hprops, dedupStr]
  · intro maps hmaps
    have hne : maps.isEmpty = false := by
      cases maps with
      | nil => exact absurd rfl hmaps
      | cons a l => rfl
    have hres : destructureSharedParameter prog maps =
        removeUseStrict
          (rewriteAccesses
            (fun q => lookupD (maps.foldl (fun m e => setAssoc m e.1 e.2) []) q q) p
            (replaceParamFirst (Pat.pobj maps) prog)) := by
      simp only [destructureSharedParameter, hfind, hne, Bool.false_eq_true, if_false]
    rw [hres]
    exact ⟨hchainPats maps _, fun hvals => hchainColl maps _ hvals⟩
  · intro hded
    have hne : ((dedupStr (collectProps p prog)).map
        (fun q => (q, q)) : List (String × String)).isEmpty = false := by
      cases h : dedupStr (collectProps p prog) with
      | nil => exact absurd h hded
      | cons a l => rfl
    have hemp : (List.isEmpty ([] : List (String × String))) = true := rfl
    have hres : destructureSharedParameter prog [] =
        removeUseStrict
          (rewriteAccesses
            (fun q => lookupD
              (((dedupStr (collectProps p prog)).map (fun q => (q, q))).foldl
                (fun m e => setAssoc m e.1 e.2) []) q q) p
            (replaceParamFirst
              (Pat.pobj ((dedupStr (collectProps p prog)).map (fun q => (q, q)))) prog)) := by
      simp only [destructureSharedParameter, hfind, hemp, if_true, hne,
        Bool.false_eq_true, if_false]
    rw [hres]
    refine ⟨hchainPats _ _, fun hp => hchainColl _ _ ?_⟩
    intro q hq
    rw [lookupD_selfmap (dedupStr (collectProps p prog)) q]
    intro hqp
    exact hp (hqp ▸ hq)

/-- Witness for the amended C6: a satellite wrapper accessing its shared
parameter through `s` and `S`, with recorded mappings `s → sharedUtil`,
`S → SHARED_CONSTANT`: the installed pattern is exactly the mapping list
and no access on the old parameter survives. -/
theorem destructure_recovery_witness :
    collectPatterns
        (destructureSharedParameter wrapperAccessEx
          [("s", "sharedUtil"), ("S", "SHARED_CONSTANT")]) =
      [[("s", "sharedUtil"), ("S", "SHARED_CONSTANT")]]
    ∧ collectProps "__shared__xxx_js"
        (destructureSharedParameter wrapperAccessEx
          [("s", "sharedUtil"), ("S", "SHARED_CONSTANT")]) = [] := by
  have h := (destructure_recovery wrapperAccessEx "__shared__xxx_js" rfl rfl).2.1
    [("s", "sharedUtil"), ("S", "SHARED_CONSTANT")] (by decide)
  exact ⟨h.1, h.2 (by decide)⟩

theorem append_swap_perm {β : Type} (A B C D : List β) :
    ((A ++ B) ++ (C ++ D)).Perm ((A ++ C) ++ (B ++ D)) := by
  rw [List.append_assoc A B (C ++ D), List.append_assoc A C (B ++ D)]
  refine List.Perm.append_left A ?_
  rw [← List.append_assoc B C D, ← List.append_assoc C B D]
  exact List.Perm.append_right D List.perm_append_comm

theorem flatten_partition_perm {α β : Type} (F G H : α → List β) (l : List α)
    (h : ∀ a ∈ l, (F a).Perm (G a ++ H a)) :
    ((l.map F).flatten).Perm ((l.map G).flatten ++ (l.map H).flatten) := by
  induction l with
  | nil => simp
  | cons a l ih =>
    simp only [List.map_cons, List.flatten_cons]
    have ha := h a (by simp)
    have hrest := ih (fun x hx => h x (by simp [hx]))
    exact List.Perm.trans (List.Perm.append ha hrest) (append_swap_perm _ _ _ _)

theorem boundNames_flatten (ll : List (List Stmt)) :
    boundNames ll.flatten = (ll.map boundNames).flatten := by
  induction ll with
  | nil => rfl
  | cons a ll ih =>
    simp only [List.flatten_cons, boundNames, List.map_append, List.flatten_append,
      List.map_cons]
    rw [show (a.map boundS).flatten = boundNames a from rfl]
    rw [show ((ll.flatten).map boundS).flatten = boundNames ll.flatten from rfl]
    rw [ih]

theorem boundNames_append (l1 l2 : List Stmt) :
    boundNames (l1 ++ l2) = boundNames l1 ++ boundNames l2 := by
  simp [boundNames, List.map_append, List.flatten_append]

theorem boundWhere_partition (p : Stmt → Bool) (prog : List Stmt) :
    (boundNames prog).Perm
      (boundWhere p prog ++ boundWhere (fun st => !(p st)) prog) := by
  have h : ∀ st ∈ prog, (boundS st).Perm
      ((if p st then boundS st else []) ++ (if !(p st) then boundS st else [])) := by
    intro st _
    by_cases hp : p st = true
    · simp [hp]
    · have hp' : p st = false := by simpa using hp
      simp [hp']
  exact flatten_partition_perm boundS _ _ prog h

theorem mem_boundWhere {p : Stmt → Bool} {prog : List Stmt} {st : Stmt} {k : String}
    (hst : st ∈ prog) (hp : p st = true) (hk : k ∈ boundS st) :
    k ∈ boundWhere p prog := by
  rw [boundWhere, List.mem_flatten]
  exact ⟨boundS st, by
    refine List.mem_map.mpr ⟨st, hst, ?_⟩
    rw [hp]
    rfl, hk⟩

theorem boundWhere_subset (p : Stmt → Bool) (prog : List Stmt) :
    ∀ k ∈ boundWhere p prog, k ∈ boundNames prog := by
  intro k hk
  rw [boundWhere, List.mem_flatten] at hk
  rcases hk with ⟨lb, hlb, hklb⟩
  rcases List.mem_map.mp hlb with ⟨st, hst, heq⟩
  rw [boundNames, List.mem_flatten]
  refine ⟨boundS st, List.mem_map.mpr ⟨st, hst, rfl⟩, ?_⟩
  by_cases hp : p st = true
  · rw [if_pos hp] at heq
    rwa [heq]
  · rw [if_neg hp] at heq
    rw [← heq] at hklb
    exact absurd hklb (by simp)

theorem localOf_rnSpec (m : List (String × String)) (sp : ImpSpec) :
    localOfSpec (rnSpec m sp) = renApp m (localOfSpec sp) := by
  cases sp with
  | named i l =>
    cases h : lookupAssoc m l with
    | some nn => simp [rnSpec, h, localOfSpec, renApp, lookupD]
    | none => simp [rnSpec, h, localOfSpec, renApp, lookupD]
  | defaultSpec l =>
    cases h : lookupAssoc m l with
    | some nn => simp [rnSpec, h, localOfSpec, renApp, lookupD]
    | none => simp [rnSpec, h, localOfSpec, renApp, lookupD]
  | starSpec l =>
    cases h : lookupAssoc m l with
    | some nn => simp [rnSpec, h, localOfSpec, renApp, lookupD]
    | none => simp [rnSpec, h, localOfSpec, renApp, lookupD]

theorem fst_rnDecls (m : List (String × String)) :
    ∀ ds : List (String × Option Expr),
      (rnDecls m ds).map Prod.fst = (ds.map Prod.fst).map (renApp m)
  | [] => rfl
  | (n, some e) :: ds => by
    simp [rnDecls, fst_rnDecls m ds]
  | (n, none) :: ds => by
    simp [rnDecls, fst_rnDecls m ds]

theorem boundS_rnStmt (m : List (String × String)) :
    ∀ s : Stmt, boundS (rnStmt m s) = (boundS s).map (renApp m)
  | .importDecl src specs => by
    simp only [rnStmt, boundS, List.map_map]
    exact List.map_congr_left (fun sp _ => localOf_rnSpec m sp)
  | .varDecl ds => by
    simp only [rnStmt, boundS]
    exact fst_rnDecls m ds
  | .funDecl n ps b => by simp [rnStmt, boundS]
  | .classDecl n => by simp [rnStmt, boundS]
  | .exportDeclStmt inner => by
    simp only [rnStmt, boundS]
    exact boundS_rnStmt m inner
  | .exportSpecs sp so => by simp [rnStmt, boundS]
  | .exportDefault e => by simp [rnStmt, boundS]
  | .exprStmt e => by simp [rnStmt, boundS]

theorem boundNames_rnStmts (m : List (String × String)) :
    ∀ prog : List Stmt, boundNames (rnStmts m prog) = (boundNames prog).map (renApp m)
  | [] => rfl
  | s :: prog => by
    simp only [rnStmts, boundNames, List.map_cons, List.flatten_cons, List.map_append]
    rw [show ((rnStmts m prog).map boundS).flatten = boundNames (rnStmts m prog) from rfl,
      show ((prog.map boundS).flatten).map (renApp m) =
        ((prog.map boundS).flatten).map (renApp m) from rfl]
    rw [boundNames_rnStmts m prog, boundS_rnStmt m s]
    rfl

theorem boundNames_renameIdentifiers (prog : List Stmt) (m : List (String × String)) :
    boundNames (renameIdentifiers prog m) = (boundNames prog).map (renApp m) := by
  rw [renameIdentifiers]
  by_cases hm : m.isEmpty = true
  · rw [if_pos hm]
    have hm' : m = [] := by
      cases m with
      | nil => rfl
      | cons a l => simp [List.isEmpty] at hm
    subst hm'
    have : (boundNames prog).map (renApp []) = (boundNames prog).map id :=
      List.map_congr_left (fun n _ => renApp_nil n)
    rw [this, List.map_id]
  · rw [if_neg hm]
    exact boundNames_rnStmts m prog

theorem countDefaults_rnStmts (m : List (String × String)) :
    ∀ prog : List Stmt, countDefaults (rnStmts m prog) = countDefaults prog
  | [] => rfl
  | s :: prog => by
    simp only [rnStmts, countDefaults, List.countP_cons]
    rw [show (rnStmts m prog).countP _ = countDefaults (rnStmts m prog) from rfl]
    rw [countDefaults_rnStmts m prog]
    cases s <;> rfl

theorem countDefaults_renameIdentifiers (prog : List Stmt) (m : List (String × String)) :
    countDefaults (renameIdentifiers prog m) = countDefaults prog := by
  rw [renameIdentifiers]
  by_cases hm : m.isEmpty = true
  · rw [if_pos hm]
  · rw [if_neg hm]
    exact countDefaults_rnStmts m prog

theorem boundNames_stripExports :
    ∀ prog : List Stmt,
      boundNames (stripExports prog) =
        (prog.map (fun st => boundS st ++ dfltS st)).flatten
  | [] => rfl
  | st :: prog => by
    have ih := boundNames_stripExports prog
    rw [stripExports, List.filterMap_cons]
    rw [stripExports] at ih
    cases st with
    | importDecl src specs =>
      simp only [boundNames, List.map_cons, List.flatten_cons] at ih ⊢
      rw [ih]
      simp [boundS, dfltS]
    | varDecl ds =>
      simp only [boundNames, List.map_cons, List.flatten_cons] at ih ⊢
      rw [ih]
      simp [boundS, dfltS]
    | funDecl n ps b =>
      simp only [boundNames, List.map_cons, List.flatten_cons] at ih ⊢
      rw [ih]
      simp [boundS, dfltS]
    | classDecl n =>
      simp only [boundNames, List.map_cons, List.flatten_cons] at ih ⊢
      rw [ih]
      simp [boundS, dfltS]
    | exportDeclStmt inner =>
      simp only [boundNames, List.map_cons, List.flatten_cons] at ih ⊢
      rw [ih]
      simp [boundS, dfltS]
    | exportSpecs sp so =>
      simp only [boundNames, List.map_cons, List.flatten_cons] at ih ⊢
      rw [ih]
      simp [boundS, dfltS]
    | exportDefault e =>
      simp only [boundNames, List.map_cons, List.flatten_cons] at ih ⊢
      rw [ih]
      simp [boundS, dfltS]
    | exprStmt e =>
      simp only [boundNames, List.map_cons, List.flatten_cons] at ih ⊢
      rw [ih]
      simp [boundS, dfltS]

theorem boundNames_strip_perm (prog : List Stmt) :
    (boundNames (stripExports prog)).Perm (boundNames prog ++ dflts prog) := by
  rw [boundNames_stripExports]
  exact flatten_partition_perm (fun st => boundS st ++ dfltS st) boundS dfltS prog
    (fun a _ => List.Perm.refl _)

theorem mem_dflts {prog : List Stmt} {n : String} (h : n ∈ dflts prog) :
    n = "__shared_default__" := by
  rw [dflts, List.mem_flatten] at h
  rcases h with ⟨lb, hlb, hn⟩
  rcases List.mem_map.mp hlb with ⟨st, _, heq⟩
  cases st with
  | exportDefault e =>
    rw [← heq] at hn
    simpa [dfltS] using hn
  | importDecl src specs => rw [← heq] at hn; simp [dfltS] at hn
  | varDecl ds => rw [← heq] at hn; simp [dfltS] at hn
  | funDecl nm ps b => rw [← heq] at hn; simp [dfltS] at hn
  | classDecl nm => rw [← heq] at hn; simp [dfltS] at hn
  | exportDeclStmt inner => rw [← heq] at hn; simp [dfltS] at hn
  | exportSpecs sp so => rw [← heq] at hn; simp [dfltS] at hn
  | exprStmt e => rw [← heq] at hn; simp [dfltS] at hn

theorem dflts_length :
    ∀ prog : List Stmt, (dflts prog).length = countDefaults prog
  | [] => rfl
  | st :: prog => by
    simp only [dflts, countDefaults, List.map_cons, List.flatten_cons,
      List.length_append, List.countP_cons]
    rw [show ((prog.map dfltS).flatten).length = (dflts prog).length from rfl,
      show prog.countP _ = countDefaults prog from rfl,
      dflts_length prog]
    cases st <;> simp [dfltS, Nat.add_comm]

theorem nodup_of_length_le_one {l : List String} (h : l.length ≤ 1) : l.Nodup := by
  cases l with
  | nil => exact List.nodup_nil
  | cons a l =>
    cases l with
    | nil => exact List.nodup_singleton a
    | cons b l => simp at h

theorem renApp_buildCollision_cases (sd sb pd pb : List String) (n : String) :
    renApp (buildCollisionRenameMap sd sb pd pb) n = n ∨
    renApp (buildCollisionRenameMap sd sb pd pb) n = "__shared$" ++ n := by
  rw [renApp, lookupD, lookup_buildCollisionRenameMap]
  by_cases h : ((sd.contains n || sb.contains n) && (pd.contains n || pb.contains n)) = true
  · rw [if_pos h]
    exact Or.inr rfl
  · rw [if_neg h]
    exact Or.inl rfl

theorem map_renApp_collision_nodup (sd sb pd pb : List String) (L : List String)
    (hL : L.Nodup) (hpf : ∀ n ∈ L, hasSharedPfx n = false) :
    (L.map (renApp (buildCollisionRenameMap sd sb pd pb))).Nodup := by
  refine List.Nodup.map_on ?_ hL
  intro x hx y hy hxy
  rcases renApp_buildCollision_cases sd sb pd pb x with hcx | hcx <;>
    rcases renApp_buildCollision_cases sd sb pd pb y with hcy | hcy
  · rw [hcx, hcy] at hxy
    exact hxy
  · rw [hcx, hcy] at hxy
    exfalso
    have : hasSharedPfx x = true := hxy ▸ hasSharedPfx_target y
    rw [hpf x hx] at this
    exact absurd this (by simp)
  · rw [hcx, hcy] at hxy
    exfalso
    have : hasSharedPfx y = true := hxy ▸ hasSharedPfx_target x
    rw [hpf y hy] at this
    exact absurd this (by simp)
  · rw [hcx, hcy] at hxy
    exact sharedTarget_inj hxy

theorem filter_isNone_eq_not_isSome (specs : List ImpSpec) (refs : List ExternalImport) :
    specs.filter (fun s => (findDupMatch s refs).isNone) =
      specs.filter (fun s => !(findDupMatch s refs).isSome) := by
  refine List.filter_congr ?_
  intro s _
  cases findDupMatch s refs <;> rfl

theorem processImportStmt_fst_indep (m0 : List (String × String)) (src : String)
    (specs : List ImpSpec) (refs : List ExternalImport) :
    (processImportStmt m0 src specs refs).1 = (processImportStmt [] src specs refs).1 := by
  simp only [processImportStmt]
  rw [dedup_fold_keep refs specs ([], m0), dedup_fold_keep refs specs ([], [])]

theorem dedup_fst_eq_flatten (prog : List Stmt) (refImports : List ExternalImport) :
    (removeOrRewriteDuplicateExternalImports prog refImports).1 =
      (prog.map (dedupOutS refImports)).flatten := by
  rw [removeOrRewriteDuplicateExternalImports]
  have general : ∀ (l : List Stmt) (acc : List Stmt × List (String × String)),
      (l.foldl
        (fun (acc : List Stmt × List (String × String)) st =>
          match st with
          | .importDecl src specs =>
            if isExternalSource src then
              let refs := refImports.filter (fun r => r.source == src)
              if refs.isEmpty then (acc.1 ++ [st], acc.2)
              else
                let pr := processImportStmt acc.2 src specs refs
                (acc.1 ++ pr.1.toList, pr.2)
            else (acc.1 ++ [st], acc.2)
          | _ => (acc.1 ++ [st], acc.2)) acc).1 =
      acc.1 ++ (l.map (dedupOutS refImports)).flatten := by
    intro l
    induction l with
    | nil => intro acc; simp
    | cons st l ih =>
      intro acc
      rw [List.foldl_cons, ih]
      cases st with
      | importDecl src specs =>
        by_cases hx : isExternalSource src = true
        · by_cases hre : (refImports.filter (fun r => r.source == src)).isEmpty = true
          · simp only [hx, if_true, hre]
            simp [dedupOutS, dedupRefsFor, hx, hre]
          · have hre' : (refImports.filter (fun r => r.source == src)).isEmpty = false := by
              simpa using hre
            simp only [hx, if_true, hre', Bool.false_eq_true, if_false]
            rw [processImportStmt_fst_indep acc.2 src specs _]
            simp [dedupOutS, dedupRefsFor, hx, hre']
        · have hx' : isExternalSource src = false := by simpa using hx
          simp only [hx', Bool.false_eq_true, if_false]
          simp [dedupOutS, hx']
      | varDecl ds => simp [dedupOutS]
      | funDecl n ps b => simp [dedupOutS]
      | classDecl n => simp [dedupOutS]
      | exportDeclStmt inner => simp [dedupOutS]
      | exportSpecs sp so => simp [dedupOutS]
      | exportDefault e => simp [dedupOutS]
      | exprStmt e => simp [dedupOutS]
  exact general prog ([], [])

theorem dedup_fold_map_domain (refs : List ExternalImport) :
    ∀ (specs : List ImpSpec) (acc : List ImpSpec × List (String × String)) (n : String),
      (lookupAssoc (specs.foldl (dedupStep refs) acc).2 n).isSome = true →
      (lookupAssoc acc.2 n).isSome = true ∨
        n ∈ (specs.filter (fun s => (findDupMatch s refs).isSome)).map localOfSpec
  | [], acc, n, h => Or.inl (by simpa using h)
  | s :: specs, acc, n, h => by
    rw [List.foldl_cons] at h
    rcases dedup_fold_map_domain refs specs _ n h with hacc | hmem
    · cases hm : findDupMatch s refs with
      | some r =>
        simp only [dedupStep, hm] at hacc
        by_cases hd : (localOfSpec s != localOfSpec r) = true
        · rw [if_pos hd] at hacc
          rw [lookupAssoc_setAssoc] at hacc
          by_cases hsn : localOfSpec s = n
          · right
            rw [List.mem_map]
            exact ⟨s, List.mem_filter.mpr ⟨by simp, by simp [hm]⟩, hsn⟩
          · rw [if_neg hsn] at hacc
            exact Or.inl hacc
        · rw [if_neg hd] at hacc
          exact Or.inl hacc
      | none =>
        simp only [dedupStep, hm] at hacc
        exact Or.inl hacc
    · right
      rcases List.mem_map.mp hmem with ⟨t, htf, hloc⟩
      rcases List.mem_filter.mp htf with ⟨htmem, hpred⟩
      exact List.mem_map.mpr ⟨t, List.mem_filter.mpr ⟨by simp [htmem], hpred⟩, hloc⟩

theorem dedup_snd_domain (prog : List Stmt) (refImports : List ExternalImport)
    (n : String) :
    (lookupAssoc (removeOrRewriteDuplicateExternalImports prog refImports).2 n).isSome = true →
    n ∈ dedupRemoved prog refImports := by
  rw [removeOrRewriteDuplicateExternalImports, dedupRemoved]
  have general : ∀ (l : List Stmt) (acc : List Stmt × List (String × String)),
      (lookupAssoc
        (l.foldl
          (fun (acc : List Stmt × List (String × String)) st =>
            match st with
            | .importDecl src specs =>
              if isExternalSource src then
                let refs := refImports.filter (fun r => r.source == src)
                if refs.isEmpty then (acc.1 ++ [st], acc.2)
                else
                  let pr := processImportStmt acc.2 src specs refs
                  (acc.1 ++ pr.1.toList, pr.2)
              else (acc.1 ++ [st], acc.2)
            | _ => (acc.1 ++ [st], acc.2)) acc).2 n).isSome = true →
      (lookupAssoc acc.2 n).isSome = true ∨
        n ∈ (l.map (dedupRemovedS refImports)).flatten := by
    intro l
    induction l with
    | nil => intro acc h; exact Or.inl (by simpa using h)
    | cons st l ih =>
      intro acc h
      rw [List.foldl_cons] at h
      cases st with
      | importDecl src specs =>
        by_cases hx : isExternalSource src = true
        · by_cases hre : (refImports.filter (fun r => r.source == src)).isEmpty = true
          · simp only [hx, if_true, hre] at h
            rcases ih _ h with hacc | hmem
            · exact Or.inl hacc
            · exact Or.inr (by
                simp only [List.map_cons, List.flatten_cons, List.mem_append]
                exact Or.inr hmem)
          · have hre' : (refImports.filter (fun r => r.source == src)).isEmpty = false := by
              simpa using hre
            simp only [hx, if_true, hre', Bool.false_eq_true, if_false] at h
            rcases ih _ h with hacc | hmem
            · rw [processImportStmt] at hacc
              simp only [] at hacc
              rcases dedup_fold_map_domain _ specs ([], acc.2) n hacc with hacc2 | hmem2
              · exact Or.inl hacc2
              · refine Or.inr ?_
                simp only [List.map_cons, List.flatten_cons, List.mem_append]
                left
                simp only [dedupRemovedS, dedupRefsFor, hx, hre']
                simpa using hmem2
            · exact Or.inr (by
                simp only [List.map_cons, List.flatten_cons, List.mem_append]
                exact Or.inr hmem)
        · have hx' : isExternalSource src = false := by simpa using hx
          simp only [hx', Bool.false_eq_true, if_false] at h
          rcases ih _ h with hacc | hmem
          · exact Or.inl hacc
          · exact Or.inr (by
              simp only [List.map_cons, List.flatten_cons, List.mem_append]
              exact Or.inr hmem)
      | varDecl ds =>
        rcases ih _ h with hacc | hmem
        · exact Or.inl hacc
        · exact Or.inr (by
            simp only [List.map_cons, List.flatten_cons, List.mem_append]
            exact Or.inr hmem)
      | funDecl nm ps b =>
        rcases ih _ h with hacc | hmem
        · exact Or.inl hacc
        · exact Or.inr (by
            simp only [List.map_cons, List.flatten_cons, List.mem_append]
            exact Or.inr hmem)
      | classDecl nm =>
        rcases ih _ h with hacc | hmem
        · exact Or.inl hacc
        · exact Or.inr (by
            simp only [List.map_cons, List.flatten_cons, List.mem_append]
            exact Or.inr hmem)
      | exportDeclStmt inner =>
        rcases ih _ h with hacc | hmem
        · exact Or.inl hacc
        · exact Or.inr (by
            simp only [List.map_cons, List.flatten_cons, List.mem_append]
            exact Or.inr hmem)
      | exportSpecs sp so =>
        rcases ih _ h with hacc | hmem
        · exact Or.inl hacc
        · exact Or.inr (by
            simp only [List.map_cons, List.flatten_cons, List.mem_append]
            exact Or.inr hmem)
      | exportDefault e =>
        rcases ih _ h with hacc | hmem
        · exact Or.inl hacc
        · exact Or.inr (by
            simp only [List.map_cons, List.flatten_cons, List.mem_append]
            exact Or.inr hmem)
      | exprStmt e =>
        rcases ih _ h with hacc | hmem
        · exact Or.inl hacc
        · exact Or.inr (by
            simp only [List.map_cons, List.flatten_cons, List.mem_append]
            exact Or.inr hmem)
  intro h
  rcases general prog ([], []) h with hacc | hmem
  · exact absurd hacc (by simp [lookupAssoc])
  · exact hmem

theorem dedup_stmt_partition (refImports : List ExternalImport) (st : Stmt) :
    (boundS st).Perm
      (((dedupOutS refImports st).map boundS).flatten ++ dedupRemovedS refImports st) := by
  cases st with
  | importDecl src specs =>
    by_cases hcond :
        (isExternalSource src && !(dedupRefsFor refImports src).isEmpty) = true
    · simp only [dedupOutS, dedupRemovedS, hcond, if_true]
      simp only [processImportStmt, dedup_fold_keep, List.nil_append]
      rw [filter_isNone_eq_not_isSome]
      by_cases hemp :
          (specs.filter
            (fun s => !(findDupMatch s (dedupRefsFor refImports src)).isSome)).isEmpty = true
      · rw [if_pos hemp]
        have hall : ∀ s ∈ specs,
            (findDupMatch s (dedupRefsFor refImports src)).isSome = true := by
          intro s hs
          by_contra hns
          have hsf : s ∈ specs.filter
              (fun s => !(findDupMatch s (dedupRefsFor refImports src)).isSome) :=
            List.mem_filter.mpr ⟨hs, by simpa using hns⟩
          rw [List.isEmpty_iff.mp hemp] at hsf
          exact absurd hsf (List.not_mem_nil s)
        have hfeq : specs.filter
            (fun s => (findDupMatch s (dedupRefsFor refImports src)).isSome) = specs :=
          List.filter_eq_self.mpr hall
        rw [hfeq]
        simp [boundS]
      · rw [if_neg hemp]
        by_cases hlt :
            (specs.filter
              (fun s => !(findDupMatch s (dedupRefsFor refImports src)).isSome)).length <
              specs.length
        · rw [if_pos hlt]
          simp only [Option.toList_some, List.map_cons, List.map_nil,
            List.flatten_cons, List.flatten_nil, List.append_nil, boundS]
          rw [← List.map_append]
          refine List.Perm.map localOfSpec ?_
          refine List.Perm.trans ?_
            (List.Perm.append_right _ (rebuildSpecs_perm _).symm)
          refine List.Perm.trans ?_ List.perm_append_comm
          exact (List.filter_append_perm _ specs).symm
        · rw [if_neg hlt]
          have hsub := List.filter_sublist (l := specs)
            (p := fun s => !(findDupMatch s (dedupRefsFor refImports src)).isSome)
          have hlen : (specs.filter
              (fun s => !(findDupMatch s (dedupRefsFor refImports src)).isSome)).length =
              specs.length := by
            have := hsub.length_le
            omega
          have hfeq := hsub.eq_of_length hlen
          have hnone : ∀ s ∈ specs,
              (findDupMatch s (dedupRefsFor refImports src)).isSome = false := by
            intro s hs
            have := List.filter_eq_self.mp hfeq s hs
            simpa using this
          have hfnil : specs.filter
              (fun s => (findDupMatch s (dedupRefsFor refImports src)).isSome) = [] := by
            refine List.filter_eq_nil_iff.mpr ?_
            intro s hs
            simp [hnone s hs]
          rw [hfnil]
          simp [boundS]
    · have hcond' :
          (isExternalSource src && !(dedupRefsFor refImports src).isEmpty) = false := by
        simpa using hcond
      simp [dedupOutS, dedupRemovedS, hcond']
  | varDecl ds => simp [dedupOutS, dedupRemovedS]
  | funDecl n ps b => simp [dedupOutS, dedupRemovedS]
  | classDecl n => simp [dedupOutS, dedupRemovedS]
  | exportDeclStmt inr => simp [dedupOutS, dedupRemovedS]
  | exportSpecs sp so => simp [dedupOutS, dedupRemovedS]
  | exportDefault e => simp [dedupOutS, dedupRemovedS]
  | exprStmt e => simp [dedupOutS, dedupRemovedS]

theorem boundNames_dedup_perm (prog : List Stmt) (refImports : List ExternalImport) :
    (boundNames prog).Perm
      (boundNames (removeOrRewriteDuplicateExternalImports prog refImports).1 ++
        dedupRemoved prog refImports) := by
  rw [dedup_fst_eq_flatten, dedupRemoved, boundNames_flatten]
  have h := flatten_partition_perm boundS
    (fun st => boundNames (dedupOutS refImports st)) (dedupRemovedS refImports) prog
    (fun st _ => by
      simpa [boundNames] using dedup_stmt_partition refImports st)
  refine List.Perm.trans h ?_
  rw [List.map_map]
  exact List.Perm.refl _

theorem rsDecls_fst (ns : List String) (renames etl : List (String × String)) :
    ∀ ds : List (String × Option Expr),
      (rsDecls ns renames etl ds).map (fun d => d.1) =
        (ds.map (fun d => d.1)).map (renApp renames)
  | [] => rfl
  | (n, some e) :: ds => by
    simp only [rsDecls, List.map_cons]
    rw [rsDecls_fst ns renames etl ds]
  | (n, none) :: ds => by
    simp only [rsDecls, List.map_cons]
    rw [rsDecls_fst ns renames etl ds]

theorem boundS_rsStmt (ns : List String) (renames etl : List (String × String)) :
    ∀ st : Stmt, boundS (rsStmt ns renames etl st) = (boundS st).map (renApp renames)
  | .importDecl src specs => by
    simp only [rsStmt, boundS, List.map_map]
    refine List.map_congr_left ?_
    intro sp _
    cases sp <;> rfl
  | .varDecl ds => by
    simp only [rsStmt, boundS]
    exact rsDecls_fst ns renames etl ds
  | .funDecl n ps b => by simp [rsStmt, boundS]
  | .classDecl n => by simp [rsStmt, boundS]
  | .exportDeclStmt inr => by
    simp only [rsStmt, boundS]
    exact boundS_rsStmt ns renames etl inr
  | .exportSpecs sp so => by simp [rsStmt, boundS]
  | .exportDefault e => by simp [rsStmt, boundS]
  | .exprStmt e => by simp [rsStmt, boundS]

theorem boundNames_removeShared (prog : List Stmt) (sharedFileName : String)
    (etl : List (String × String)) :
    boundNames (removeSharedImportsAndRewriteRefs prog sharedFileName etl) =
      (boundWhere (fun st => !(isSharedImportStmt sharedFileName st)) prog).map
        (renApp (collectNamedImportRenames prog sharedFileName etl)) := by
  simp only [removeSharedImportsAndRewriteRefs]
  generalize collectNamespaceNames prog sharedFileName = ns
  generalize collectNamedImportRenames prog sharedFileName etl = renames
  induction prog with
  | nil => rfl
  | cons st l ih =>
    rw [List.filterMap_cons]
    cases st with
    | importDecl src specs =>
      by_cases hs : isSharedChunkSource src sharedFileName = true
      · simp only [hs, if_true]
        rw [ih]
        simp [boundWhere, isSharedImportStmt, hs]
      · have hs' : isSharedChunkSource src sharedFileName = false := by simpa using hs
        simp only [hs', Bool.false_eq_true, if_false]
        simp only [boundNames, List.map_cons, List.flatten_cons]
        rw [show ((List.filterMap _ l).map boundS).flatten =
          boundNames (List.filterMap _ l) from rfl, ih]
        simp [boundWhere, isSharedImportStmt, hs', boundS_rsStmt]
    | varDecl ds =>
      simp only [boundNames, List.map_cons, List.flatten_cons]
      rw [show ((List.filterMap _ l).map boundS).flatten =
        boundNames (List.filterMap _ l) from rfl, ih]
      simp [boundWhere, isSharedImportStmt, boundS_rsStmt]
    | funDecl n ps b =>
      simp only [boundNames, List.map_cons, List.flatten_cons]
      rw [show ((List.filterMap _ l).map boundS).flatten =
        boundNames (List.filterMap _ l) from rfl, ih]
      simp [boundWhere, isSharedImportStmt, boundS_rsStmt]
    | classDecl n =>
      simp only [boundNames, List.map_cons, List.flatten_cons]
      rw [show ((List.filterMap _ l).map boundS).flatten =
        boundNames (List.filterMap _ l) from rfl, ih]
      simp [boundWhere, isSharedImportStmt, boundS_rsStmt]
    | exportDeclStmt inr =>
      simp only [boundNames, List.map_cons, List.flatten_cons]
      rw [show ((List.filterMap _ l).map boundS).flatten =
        boundNames (List.filterMap _ l) from rfl, ih]
      simp [boundWhere, isSharedImportStmt, boundS_rsStmt]
    | exportSpecs sp so =>
      cases so with
      | none =>
        simp only [boundNames, List.map_cons, List.flatten_cons]
        rw [show ((List.filterMap _ l).map boundS).flatten =
          boundNames (List.filterMap _ l) from rfl, ih]
        simp [boundWhere, isSharedImportStmt, boundS_rsStmt, boundS]
      | some src =>
        by_cases hs : isSharedChunkSource src sharedFileName = true
        · simp only [hs, if_true]
          simp only [boundNames, List.map_cons, List.flatten_cons]
          rw [show ((List.filterMap _ l).map boundS).flatten =
            boundNames (List.filterMap _ l) from rfl, ih]
          simp [boundWhere, isSharedImportStmt, boundS]
        · have hs' : isSharedChunkSource src sharedFileName = false := by simpa using hs
          simp only [hs', Bool.false_eq_true, if_false]
          simp only [boundNames, List.map_cons, List.flatten_cons]
          rw [show ((List.filterMap _ l).map boundS).flatten =
            boundNames (List.filterMap _ l) from rfl, ih]
          simp [boundWhere, isSharedImportStmt, boundS_rsStmt, boundS]
    | exportDefault e =>
      simp only [boundNames, List.map_cons, List.flatten_cons]
      rw [show ((List.filterMap _ l).map boundS).flatten =
        boundNames (List.filterMap _ l) from rfl, ih]
      simp [boundWhere, isSharedImportStmt, boundS_rsStmt, boundS]
    | exprStmt e =>
      simp only [boundNames, List.map_cons, List.flatten_cons]
      rw [show ((List.filterMap _ l).map boundS).flatten =
        boundNames (List.filterMap _ l) from rfl, ih]
      simp [boundWhere, isSharedImportStmt, boundS_rsStmt, boundS]

theorem cnr_inner_domain (etl : List (String × String)) :
    ∀ (specs : List ImpSpec) (m : List (String × String)) (n : String),
      (lookupAssoc
        (specs.foldl
          (fun m sp =>
            match sp with
            | .named imported l =>
              let actual := lookupD etl imported imported
              if l != actual then setAssoc m l actual else m
            | .defaultSpec l =>
              let actual := lookupD etl "default" "__shared_default__"
              if l != actual then setAssoc m l actual else m
            | .starSpec _ => m)
          m) n).isSome = true →
      (lookupAssoc m n).isSome = true ∨ n ∈ specs.map localOfSpec
  | [], m, n, h => Or.inl h
  | sp :: specs, m, n, h => by
    rw [List.foldl_cons] at h
    rcases cnr_inner_domain etl specs _ n h with hm | hmem
    · cases sp with
      | named imported l =>
        simp only [] at hm
        by_cases hd : (l != lookupD etl imported imported) = true
        · rw [if_pos hd, lookupAssoc_setAssoc] at hm
          by_cases hln : l = n
          · exact Or.inr (by simp [localOfSpec, hln])
          · rw [if_neg hln] at hm
            exact Or.inl hm
        · rw [if_neg hd] at hm
          exact Or.inl hm
      | defaultSpec l =>
        simp only [] at hm
        by_cases hd : (l != lookupD etl "default" "__shared_default__") = true
        · rw [if_pos hd, lookupAssoc_setAssoc] at hm
          by_cases hln : l = n
          · exact Or.inr (by simp [localOfSpec, hln])
          · rw [if_neg hln] at hm
            exact Or.inl hm
        · rw [if_neg hd] at hm
          exact Or.inl hm
      | starSpec l =>
        exact Or.inl hm
    · exact Or.inr (by simp [List.mem_map] at hmem ⊢; tauto)

theorem cnr_domain (prog : List Stmt) (sharedFileName : String)
    (etl : List (String × String)) (n : String) :
    (lookupAssoc (collectNamedImportRenames prog sharedFileName etl) n).isSome = true →
    n ∈ boundWhere (isSharedImportStmt sharedFileName) prog := by
  rw [collectNamedImportRenames]
  have general : ∀ (l : List Stmt) (m : List (String × String)),
      (lookupAssoc
        (l.foldl
          (fun m st =>
            match st with
            | .importDecl src specs =>
              if isSharedChunkSource src sharedFileName then
                specs.foldl
                  (fun m sp =>
                    match sp with
                    | .named imported l =>
                      let actual := lookupD etl imported imported
                      if l != actual then setAssoc m l actual else m
                    | .defaultSpec l =>
                      let actual := lookupD etl "default" "__shared_default__"
                      if l != actual then setAssoc m l actual else m
                    | .starSpec _ => m)
                  m
              else m
            | _ => m)
          m) n).isSome = true →
      (lookupAssoc m n).isSome = true ∨
        ∃ st ∈ l, isSharedImportStmt sharedFileName st = true ∧ n ∈ boundS st := by
    intro l
    induction l with
    | nil => intro m h; exact Or.inl h
    | cons st l ih =>
      intro m h
      rw [List.foldl_cons] at h
      rcases ih _ h with hm | ⟨st', hst', hsh, hn⟩
      · cases st with
        | importDecl src specs =>
          by_cases hs : isSharedChunkSource src sharedFileName = true
          · simp only [hs, if_true] at hm
            rcases cnr_inner_domain etl specs m n hm with hm2 | hmem
            · exact Or.inl hm2
            · exact Or.inr ⟨.importDecl src specs, by simp,
                by simp [isSharedImportStmt, hs], by simpa [boundS] using hmem⟩
          · have hs' : isSharedChunkSource src sharedFileName = false := by simpa using hs
            simp only [hs', Bool.false_eq_true, if_false] at hm
            exact Or.inl hm
        | varDecl ds => exact Or.inl hm
        | funDecl nm ps b => exact Or.inl hm
        | classDecl nm => exact Or.inl hm
        | exportDeclStmt inr => exact Or.inl hm
        | exportSpecs sp so => exact Or.inl hm
        | exportDefault e => exact Or.inl hm
        | exprStmt e => exact Or.inl hm
      · exact Or.inr ⟨st', by simp [hst'], hsh, hn⟩
  intro h
  rcases general prog [] h with hm | ⟨st, hst, hsh, hn⟩
  · exact absurd hm (by simp [lookupAssoc])
  · exact mem_boundWhere hst hsh hn

theorem boundWhere_mem_elim {p : Stmt → Bool} {prog : List Stmt} {k : String}
    (h : k ∈ boundWhere p prog) : ∃ st ∈ prog, p st = true ∧ k ∈ boundS st := by
  rw [boundWhere, List.mem_flatten] at h
  rcases h with ⟨lb, hlb, hk⟩
  rcases List.mem_map.mp hlb with ⟨st, hst, heq⟩
  by_cases hp : p st = true
  · rw [hp] at heq
    simp only [if_true] at heq
    exact ⟨st, hst, hp, heq ▸ hk⟩
  · have hp' : p st = false := by simpa using hp
    rw [hp'] at heq
    simp only [Bool.false_eq_true, if_false] at heq
    rw [← heq] at hk
    exact absurd hk (List.not_mem_nil k)

theorem dedupOutS_sideOk (sharedFileName : String) (refImports : List ExternalImport)
    (st : Stmt) (hok : primarySideOk sharedFileName st = true) :
    ∀ st' ∈ dedupOutS refImports st, primarySideOk sharedFileName st' = true := by
  intro st' hst'
  cases st with
  | importDecl src specs =>
    by_cases hcond :
        (isExternalSource src && !(dedupRefsFor refImports src).isEmpty) = true
    · simp only [dedupOutS, hcond, if_true] at hst'
      simp only [processImportStmt] at hst'
      by_cases hemp : ((specs.foldl (dedupStep (dedupRefsFor refImports src)) ([], [])).1).isEmpty = true
      · rw [if_pos hemp] at hst'
        exact absurd hst' (List.not_mem_nil st')
      · rw [if_neg hemp] at hst'
        by_cases hlt : ((specs.foldl (dedupStep (dedupRefsFor refImports src)) ([], [])).1).length < specs.length
        · rw [if_pos hlt] at hst'
          simp only [Option.toList_some, List.mem_singleton] at hst'
          subst hst'
          simpa [primarySideOk] using hok
        · rw [if_neg hlt] at hst'
          simp only [Option.toList_some, List.mem_singleton] at hst'
          subst hst'
          exact hok
    · have hcond' :
          (isExternalSource src && !(dedupRefsFor refImports src).isEmpty) = false := by
        simpa using hcond
      simp only [dedupOutS, hcond', Bool.false_eq_true, if_false,
        List.mem_singleton] at hst'
      subst hst'
      exact hok
  | varDecl ds =>
    simp only [dedupOutS, List.mem_singleton] at hst'
    subst hst'; exact hok
  | funDecl n ps b =>
    simp only [dedupOutS, List.mem_singleton] at hst'
    subst hst'; exact hok
  | classDecl n =>
    simp only [dedupOutS, List.mem_singleton] at hst'
    subst hst'; exact hok
  | exportDeclStmt inr =>
    simp only [dedupOutS, List.mem_singleton] at hst'
    subst hst'; exact hok
  | exportSpecs sp so =>
    simp only [dedupOutS, List.mem_singleton] at hst'
    subst hst'; exact hok
  | exportDefault e =>
    simp only [dedupOutS, List.mem_singleton] at hst'
    subst hst'; exact hok
  | exprStmt e =>
    simp only [dedupOutS, List.mem_singleton] at hst'
    subst hst'; exact hok

theorem mem_dedup_fst {prog : List Stmt} {refImports : List ExternalImport} {st' : Stmt}
    (h : st' ∈ (removeOrRewriteDuplicateExternalImports prog refImports).1) :
    ∃ st ∈ prog, st' ∈ dedupOutS refImports st := by
  rw [dedup_fst_eq_flatten, List.mem_flatten] at h
  rcases h with ⟨lb, hlb, hst'⟩
  rcases List.mem_map.mp hlb with ⟨st, hst, heq⟩
  exact ⟨st, hst, heq ▸ hst'⟩

theorem boundS_covered_shared (st : Stmt) (hok : sharedSideOk st = true) :
    ∀ n ∈ boundS st, n ∈ tldNamesOf st ∨ n ∈ extBindNamesOf st := by
  intro n hn
  cases st with
  | importDecl src specs =>
    have hx : isExternalSource src = true := by simpa [sharedSideOk] using hok
    right
    simpa [extBindNamesOf, boundS, hx] using hn
  | varDecl ds => left; simpa [tldNamesOf, boundS] using hn
  | funDecl nm ps b => left; simpa [tldNamesOf, boundS] using hn
  | classDecl nm => left; simpa [tldNamesOf, boundS] using hn
  | exportDeclStmt inr =>
    left
    have hd : declLike inr = true := by simpa [sharedSideOk] using hok
    cases inr with
    | varDecl ds => simpa [tldNamesOf, boundS] using hn
    | funDecl nm ps b => simpa [tldNamesOf, boundS] using hn
    | classDecl nm => simpa [tldNamesOf, boundS] using hn
    | importDecl src specs => simp [declLike] at hd
    | exportDeclStmt i2 => simp [declLike] at hd
    | exportSpecs sp so => simp [declLike] at hd
    | exportDefault e => simp [declLike] at hd
    | exprStmt e => simp [declLike] at hd
  | exportSpecs sp so => simp [boundS] at hn
  | exportDefault e => simp [boundS] at hn
  | exprStmt e => simp [boundS] at hn

theorem boundS_covered_primary (sharedFileName : String) (st : Stmt)
    (hok : primarySideOk sharedFileName st = true)
    (hns : isSharedImportStmt sharedFileName st = false) :
    ∀ n ∈ boundS st, n ∈ tldNamesOf st ∨ n ∈ extBindNamesOf st := by
  intro n hn
  cases st with
  | importDecl src specs =>
    have hsh : isSharedChunkSource src sharedFileName = false := by
      simpa [isSharedImportStmt] using hns
    have hx : isExternalSource src = true := by
      have := hok
      simp only [primarySideOk, hsh, Bool.or_false] at this
      exact this
    right
    simpa [extBindNamesOf, boundS, hx] using hn
  | varDecl ds => left; simpa [tldNamesOf, boundS] using hn
  | funDecl nm ps b => left; simpa [tldNamesOf, boundS] using hn
  | classDecl nm => left; simpa [tldNamesOf, boundS] using hn
  | exportDeclStmt inr =>
    left
    have hd : declLike inr = true := by simpa [primarySideOk] using hok
    cases inr with
    | varDecl ds => simpa [tldNamesOf, boundS] using hn
    | funDecl nm ps b => simpa [tldNamesOf, boundS] using hn
    | classDecl nm => simpa [tldNamesOf, boundS] using hn
    | importDecl src specs => simp [declLike] at hd
    | exportDeclStmt i2 => simp [declLike] at hd
    | exportSpecs sp so => simp [declLike] at hd
    | exportDefault e => simp [declLike] at hd
    | exprStmt e => simp [declLike] at hd
  | exportSpecs sp so => simp [boundS] at hn
  | exportDefault e => simp [boundS] at hn
  | exprStmt e => simp [boundS] at hn

theorem shared_coverage (shared : List Stmt) (h : shared.all sharedSideOk = true) :
    ∀ n ∈ boundNames shared,
      n ∈ extractTopLevelDeclarations shared ∨
        n ∈ extractExternalImportBindings shared := by
  intro n hn
  rw [boundNames, List.mem_flatten] at hn
  rcases hn with ⟨lb, hlb, hnlb⟩
  rcases List.mem_map.mp hlb with ⟨st, hst, heq⟩
  have hok : sharedSideOk st = true := by
    have := List.all_eq_true.mp h st hst
    simpa using this
  rcases boundS_covered_shared st hok n (heq ▸ hnlb) with h1 | h2
  · exact Or.inl ((mem_extractTLD shared n).mpr ⟨st, hst, h1⟩)
  · exact Or.inr ((mem_extractExternalImportBindings shared n).mpr ⟨st, hst, h2⟩)

theorem dedup_coverage (primary shared : List Stmt) (sharedFileName : String)
    (h : primary.all (primarySideOk sharedFileName) = true) :
    ∀ k ∈ boundWhere (fun st => !(isSharedImportStmt sharedFileName st))
        (dedupedPrimary primary shared),
      k ∈ extractTopLevelDeclarations (dedupedPrimary primary shared) ∨
        k ∈ extractExternalImportBindings (dedupedPrimary primary shared) := by
  intro k hk
  rcases boundWhere_mem_elim hk with ⟨st', hst', hp, hkb⟩
  have hns : isSharedImportStmt sharedFileName st' = false := by
    simpa using hp
  have hok : primarySideOk sharedFileName st' = true := by
    rcases mem_dedup_fst hst' with ⟨st, hst, hout⟩
    have hok0 : primarySideOk sharedFileName st = true := by
      have := List.all_eq_true.mp h st hst
      simpa using this
    exact dedupOutS_sideOk sharedFileName _ st hok0 st' hout
  rcases boundS_covered_primary sharedFileName st' hok hns k hkb with h1 | h2
  · exact Or.inl ((mem_extractTLD _ k).mpr ⟨st', hst', h1⟩)
  · exact Or.inr ((mem_extractExternalImportBindings _ k).mpr ⟨st', hst', h2⟩)

theorem mem_boundNames_dedup {primary : List Stmt} {refImports : List ExternalImport}
    {k : String}
    (h : k ∈ boundNames (removeOrRewriteDuplicateExternalImports primary refImports).1) :
    k ∈ boundNames primary := by
  have hp := boundNames_dedup_perm primary refImports
  rw [hp.mem_iff]
  exact List.mem_append.mpr (Or.inl h)

theorem boundNames_primaryFinal (primary shared : List Stmt) (sharedFileName : String)
    (etl : List (String × String)) (h1 : (boundNames primary).Nodup) :
    boundNames (renameIdentifiers
      (removeSharedImportsAndRewriteRefs (dedupedPrimary primary shared)
        sharedFileName etl)
      (externalRenameMapOf primary shared)) =
    boundWhere (fun st => !(isSharedImportStmt sharedFileName st))
      (dedupedPrimary primary shared) := by
  have hperm := boundNames_dedup_perm primary (extractExternalImports shared)
  rw [show (removeOrRewriteDuplicateExternalImports primary
      (extractExternalImports shared)).1 = dedupedPrimary primary shared from rfl] at hperm
  have hnd2 := (hperm.nodup_iff).mp h1
  rcases List.nodup_append.mp hnd2 with ⟨hndPd, _, hdisjRem⟩
  have hpart := boundWhere_partition (fun st => isSharedImportStmt sharedFileName st)
    (dedupedPrimary primary shared)
  have hndPart := (hpart.nodup_iff).mp hndPd
  rcases List.nodup_append.mp hndPart with ⟨_, _, hdisjPQ⟩
  rw [boundNames_renameIdentifiers, boundNames_removeShared]
  have hmap1 : (boundWhere (fun st => !(isSharedImportStmt sharedFileName st))
        (dedupedPrimary primary shared)).map
      (renApp (collectNamedImportRenames (dedupedPrimary primary shared)
        sharedFileName etl)) =
      boundWhere (fun st => !(isSharedImportStmt sharedFileName st))
        (dedupedPrimary primary shared) := by
    have hc : ∀ k ∈ boundWhere (fun st => !(isSharedImportStmt sharedFileName st))
        (dedupedPrimary primary shared),
        renApp (collectNamedImportRenames (dedupedPrimary primary shared)
          sharedFileName etl) k = id k := by
      intro k hk
      cases hl : lookupAssoc (collectNamedImportRenames (dedupedPrimary primary shared)
          sharedFileName etl) k with
      | none => exact renApp_of_lookup_none hl
      | some v =>
        exfalso
        have hks : k ∈ boundWhere (isSharedImportStmt sharedFileName)
            (dedupedPrimary primary shared) :=
          cnr_domain _ _ _ k (by rw [hl]; rfl)
        exact hdisjPQ hks hk
    rw [List.map_congr_left hc, List.map_id]
  rw [hmap1]
  have hc2 : ∀ k ∈ boundWhere (fun st => !(isSharedImportStmt sharedFileName st))
      (dedupedPrimary primary shared),
      renApp (externalRenameMapOf primary shared) k = id k := by
    intro k hk
    cases hl : lookupAssoc (externalRenameMapOf primary shared) k with
    | none => exact renApp_of_lookup_none hl
    | some v =>
      exfalso
      have hrm : k ∈ dedupRemoved primary (extractExternalImports shared) := by
        refine dedup_snd_domain primary (extractExternalImports shared) k ?_
        rw [show (removeOrRewriteDuplicateExternalImports primary
          (extractExternalImports shared)).2 = externalRenameMapOf primary shared from rfl]
        rw [hl]
        rfl
      have hkPd : k ∈ boundNames (dedupedPrimary primary shared) :=
        boundWhere_subset _ _ k hk
      exact hdisjRem hkPd hrm
  rw [List.map_congr_left hc2, List.map_id]

/-- **C1 (amended).**  Collision-freedom of the merge under the stated
freshness side conditions: when both chunks have duplicate-free top-level
binders, neither chunk binds a name starting with the reserved `__shared`
prefix, the shared property name is fresh, the shared chunk has at most one
default export and only external imports, and the primary's imports are
external or shared-chunk imports, the merged output's top-level binders are
duplicate-free. -/
theorem merge_collision_free (primary shared : List Stmt) (sharedProperty : String)
    (needed : List String) (sharedFileName : String)
    (h1 : (boundNames primary).Nodup)
    (h2 : (boundNames shared).Nodup)
    (h3 : countDefaults shared ≤ 1)
    (h4 : ∀ n ∈ boundNames primary ++ boundNames shared, hasSharedPfx n = false)
    (h5 : sharedProperty ∉ boundNames primary ++ boundNames shared)
    (h6 : hasSharedPfx sharedProperty = false)
    (h7 : shared.all sharedSideOk = true)
    (h8 : primary.all (primarySideOk sharedFileName) = true) :
    (boundNames (mergeSharedIntoPrimary primary shared sharedProperty needed
      sharedFileName)).Nodup := by
  have hYnodup : (boundWhere (fun st => !(isSharedImportStmt sharedFileName st))
      (dedupedPrimary primary shared)).Nodup := by
    have hperm := boundNames_dedup_perm primary (extractExternalImports shared)
    have hnd2 := (hperm.nodup_iff).mp h1
    rcases List.nodup_append.mp hnd2 with ⟨hndPd, _, _⟩
    have hpart := boundWhere_partition (fun st => isSharedImportStmt sharedFileName st)
      (dedupedPrimary primary shared)
    have hndPart := (hpart.nodup_iff).mp hndPd
    exact (List.nodup_append.mp hndPart).2.1
  have hYsub : ∀ k ∈ boundWhere (fun st => !(isSharedImportStmt sharedFileName st))
      (dedupedPrimary primary shared), k ∈ boundNames primary := by
    intro k hk
    exact mem_boundNames_dedup (boundWhere_subset _ _ k hk)
  simp only [mergeSharedIntoPrimary]
  rw [boundNames_append, boundNames_append, List.append_assoc]
  rw [boundNames_primaryFinal primary shared sharedFileName _ h1]
  simp only [collisionMapOf]
  have hstrip := boundNames_strip_perm
    (renameIdentifiers shared
      (buildCollisionRenameMap (extractTopLevelDeclarations shared)
        (extractExternalImportBindings shared)
        (extractTopLevelDeclarations (dedupedPrimary primary shared))
        (extractExternalImportBindings (dedupedPrimary primary shared))))
  rw [boundNames_renameIdentifiers] at hstrip
  refine (List.Perm.append_right _ hstrip).nodup_iff.mpr ?_
  have hT : ∀ t ∈ boundNames
      (if (mergeEntries primary shared needed).isEmpty then ([] : List Stmt)
       else [Stmt.varDecl [(sharedProperty,
              some (Expr.objLit (mergeEntries primary shared needed)))],
             Stmt.exportSpecs [(sharedProperty, sharedProperty)] none]),
      t = sharedProperty := by
    by_cases hE : (mergeEntries primary shared needed).isEmpty = true
    · simp [hE, boundNames]
    · simp [hE, boundNames, boundS]
  have hTnd : (boundNames
      (if (mergeEntries primary shared needed).isEmpty then ([] : List Stmt)
       else [Stmt.varDecl [(sharedProperty,
              some (Expr.objLit (mergeEntries primary shared needed)))],
             Stmt.exportSpecs [(sharedProperty, sharedProperty)] none])).Nodup := by
    by_cases hE : (mergeEntries primary shared needed).isEmpty = true
    · simp [hE, boundNames]
    · simp [hE, boundNames, boundS]
  refine List.nodup_append.mpr ⟨?_, ?_, ?_⟩
  · refine List.nodup_append.mpr ⟨?_, ?_, ?_⟩
    · exact map_renApp_collision_nodup _ _ _ _ (boundNames shared) h2
        (fun n hn => h4 n (List.mem_append.mpr (Or.inr hn)))
    · refine nodup_of_length_le_one ?_
      rw [dflts_length, countDefaults_renameIdentifiers]
      exact h3
    · intro a haA haD
      rcases List.mem_map.mp haA with ⟨n, hn, hren⟩
      have hdv := mem_dflts haD
      rcases renApp_buildCollision_cases (extractTopLevelDeclarations shared)
          (extractExternalImportBindings shared)
          (extractTopLevelDeclarations (dedupedPrimary primary shared))
          (extractExternalImportBindings (dedupedPrimary primary shared)) n with hc | hc
      · rw [hc] at hren
        have hpf := h4 n (List.mem_append.mpr (Or.inr hn))
        rw [hren, hdv, hasSharedPfx_default] at hpf
        exact absurd hpf (by simp)
      · rw [hc] at hren
        rw [hdv] at hren
        exact sharedTarget_ne_default n hren
  · refine List.nodup_append.mpr ⟨hYnodup, hTnd, ?_⟩
    intro a haY haT
    have hsp := hT a haT
    rw [hsp] at haY
    exact h5 (List.mem_append.mpr (Or.inl (hYsub _ haY)))
  · intro a haAD haYT
    rcases List.mem_append.mp haAD with haA | haD
    · rcases List.mem_map.mp haA with ⟨n, hn, hren⟩
      rcases renApp_buildCollision_cases (extractTopLevelDeclarations shared)
          (extractExternalImportBindings shared)
          (extractTopLevelDeclarations (dedupedPrimary primary shared))
          (extractExternalImportBindings (dedupedPrimary primary shared)) n with hc | hc
      · rw [hc] at hren
        rw [← hren] at haYT
        rcases List.mem_append.mp haYT with haY | haT
        · have hsharedC : ((extractTopLevelDeclarations shared).contains n ||
              (extractExternalImportBindings shared).contains n) = true := by
            rcases shared_coverage shared h7 n hn with h | h
            · rw [(contains_iff_mem _ _).mpr h]
              rfl
            · rw [(contains_iff_mem _ _).mpr h, Bool.or_true]
          have hprimC : ((extractTopLevelDeclarations
                (dedupedPrimary primary shared)).contains n ||
              (extractExternalImportBindings
                (dedupedPrimary primary shared)).contains n) = true := by
            rcases dedup_coverage primary shared sharedFileName h8 n haY with h | h
            · rw [(contains_iff_mem _ _).mpr h]
              rfl
            · rw [(contains_iff_mem _ _).mpr h, Bool.or_true]
          have hlook : lookupAssoc
              (buildCollisionRenameMap (extractTopLevelDeclarations shared)
                (extractExternalImportBindings shared)
                (extractTopLevelDeclarations (dedupedPrimary primary shared))
                (extractExternalImportBindings (dedupedPrimary primary shared))) n =
              some ("__shared$" ++ n) := by
            rw [lookup_buildCollisionRenameMap, hsharedC, hprimC]
            rfl
          have heq : n = "__shared$" ++ n := by
            have h2' := renApp_of_lookup_some hlook
            rw [hc] at h2'
            exact h2'
          have hpf : hasSharedPfx n = true := by
            rw [heq]
            exact hasSharedPfx_target n
          rw [h4 n (List.mem_append.mpr (Or.inr hn))] at hpf
          exact absurd hpf (by simp)
        · have hsp := hT n haT
          rw [hsp] at hn
          exact h5 (List.mem_append.mpr (Or.inr hn))
      · rw [hc] at hren
        have hpf : hasSharedPfx a = true := by
          rw [← hren]
          exact hasSharedPfx_target n
        rcases List.mem_append.mp haYT with haY | haT
        · rw [h4 a (List.mem_append.mpr (Or.inl (hYsub _ haY)))] at hpf
          exact absurd hpf (by simp)
        · have hsp := hT a haT
          rw [hsp, h6] at hpf
          exact absurd hpf (by simp)
    · have hdv := mem_dflts haD
      rcases List.mem_append.mp haYT with haY | haT
      · have hpf := h4 a (List.mem_append.mpr (Or.inl (hYsub _ haY)))
        rw [hdv, hasSharedPfx_default] at hpf
        exact absurd hpf (by simp)
      · have hsp := hT a haT
        rw [hdv] at hsp
        rw [← hsp, hasSharedPfx_default] at h6
        exact absurd h6 (by simp)

/-- **C1 counterexample.**  The original collision-freedom claim fails
without freshness assumptions: when the primary chunk already binds the
reserved rename target `__shared$x` and both chunks bind `x`, the collision
resolver renames the shared `x` to `__shared$x`, and the merged output
binds `__shared$x` twice. -/
theorem merge_not_collision_free :
    ¬ (boundNames (mergeSharedIntoPrimary primaryClash sharedClash "Shared" []
        "__shared__-abc.js")).Nodup := by decide

/-- **C1 witness.**  The amended collision-freedom theorem applied to a
concrete primary/shared chunk pair with an external-import collision
(`useState`): all side conditions hold and the merged output's top-level
binders are duplicate-free. -/
theorem merge_collision_free_witness :
    (boundNames primaryOkEx).Nodup ∧
    (boundNames sharedOkEx).Nodup ∧
    countDefaults sharedOkEx ≤ 1 ∧
    (∀ n ∈ boundNames primaryOkEx ++ boundNames sharedOkEx, hasSharedPfx n = false) ∧
    "Shared" ∉ boundNames primaryOkEx ++ boundNames sharedOkEx ∧
    hasSharedPfx "Shared" = false ∧
    sharedOkEx.all sharedSideOk = true ∧
    primaryOkEx.all (primarySideOk "__shared__-abc.js") = true ∧
    (boundNames (mergeSharedIntoPrimary primaryOkEx sharedOkEx "Shared" ["helper"]
      "__shared__-abc.js")).Nodup :=
  ⟨by decide, by decide, by decide, by decide, by decide, by decide, by decide, by decide,
   merge_collision_free primaryOkEx sharedOkEx "Shared" ["helper"] "__shared__-abc.js"
     (by decide) (by decide) (by decide) (by decide) (by decide) (by decide)
     (by decide) (by decide)⟩
